import Mathlib

/-!
Verification of the Phalanx secrets service (`src/phalanx/services/secrets.py`).

The Python service is embedded shallowly: Python dicts become association
lists preserving insertion order (as Python dicts do), pydantic `SecretStr`
values become `String` with Python truthiness (`None` and the empty string
are falsy), and Vault mutations become an explicit list of operations.
-/

set_option linter.unusedVariables false

namespace Phalanx

/-- Association list modelling a Python `dict[str, α]` (insertion order preserved). -/
abbrev SMap := List (String × String)

/-- Nested mapping `application → key → value`, modelling `dict[str, dict[str, SecretStr]]`. -/
abbrev AppMap := List (String × SMap)

/-- Python `d.get(key)` on a dict modelled as an association list. -/
def alookup {α : Type} : List (String × α) → String → Option α
  | [], _ => none
  | (k, v) :: rest, key => if k = key then some v else alookup rest key

/-- Python `d[key] = v` on a dict: update in place if present, else append. -/
def ainsert {α : Type} : List (String × α) → String → α → List (String × α)
  | [], key, v => [(key, v)]
  | (k, w) :: rest, key, v =>
      if k = key then (key, v) :: rest else (k, w) :: ainsert rest key v

/-- Python `del d[key]` on a dict (no-op when the key is absent). -/
def aerase {α : Type} : List (String × α) → String → List (String × α)
  | [], _ => []
  | (k, w) :: rest, key => if k = key then rest else (k, w) :: aerase rest key

/-- Python `m.get(a, \x7b\x7d).get(k)`. -/
def lookup2 (m : AppMap) (a k : String) : Option String :=
  alookup ((alookup m a).getD []) k

/-- Python `m[a][k] = v` where `m` is a `defaultdict` of dicts. -/
def insert2 (m : AppMap) (a k v : String) : AppMap :=
  ainsert m a (ainsert ((alookup m a).getD []) k v)

/-- Python truthiness of `SecretStr | None`: `None` is falsy, and pydantic
`SecretStr` defines `len`, so a `SecretStr` wrapping `""` is falsy too. -/
def truthy : Option String → Bool
  | none => false
  | some s => decide (s ≠ "")

/-- Source line 464 of `secrets.py`: the target of a copy rule (`models/secrets.py` holds
the class; only the `application`/`key` fields are used by the service). -/
structure CopyRules where
  application : String
  key : String
deriving DecidableEq

/-- Generate rules (`models/secrets.py`, used via `isinstance(...,
SourceSecretGenerateRules)` and `.generate(...)` at lines 472-479).
Modelled from the spec: the generation function of a plain generate rule is
modelled deterministically as producing the value `fresh`; a
generate-from-source rule applies `gen` to the resolved value of the source secret
value. -/
inductive GenerateRules where
  | simple (fresh : String)
  | fromSource (source : String) (gen : String → String)

/-- One secret declaration: an `(application, key)` pair plus the optional
rule fields inspected by `_resolve_secret`. -/
structure Secret where
  application : String
  key : String
  value : Option String := none
  copy_rules : Option CopyRules := none
  generate : Option GenerateRules := none

/-- The `(application, key)` identity of a declaration. -/
def pairOf (c : Secret) : String × String := (c.application, c.key)

/-- A user-supplied static secret (only the `value` field is read by the service). -/
structure StaticSecret where
  value : Option String := none

/-- Modelled from the spec: one registry/username/password/email credential
tuple of the pull secret (`models/secrets.py` is outside `src/`). -/
structure RegistryCredentials where
  username : String
  password : String
  email : String
deriving DecidableEq

/-- Modelled from the spec: the pull secret is a structured object holding
container-registry credentials keyed by registry. -/
structure PullSecret where
  registries : List (String × RegistryCredentials) := []
deriving DecidableEq

/-- Modelled from the spec: the pull secret serializes to a single composite
value (a `.dockerconfigjson` document listing every registry credential). -/
def PullSecret.to_dockerconfigjson (p : PullSecret) : String :=
  "\x7b\"auths\":\x7b"
    ++ String.intercalate ","
      (p.registries.map (fun rc =>
        "\"" ++ rc.1 ++ "\":\x7b\"username\":\"" ++ rc.2.username
          ++ "\",\"password\":\"" ++ rc.2.password
          ++ "\",\"email\":\"" ++ rc.2.email ++ "\"\x7d"))
    ++ "\x7d\x7d"

/-- User-provided static secrets plus the optional pull secret. -/
structure StaticSecrets where
  applications : List (String × List (String × StaticSecret)) := []
  pull_secret : Option PullSecret := none

/-- Modelled from the spec: `StaticSecrets.for_application` (in
`models/secrets.py`, outside `src/`) returns the static mapping for one
application, empty when the application has none. -/
def StaticSecrets.for_application (s : StaticSecrets) (a : String) :
    List (String × StaticSecret) :=
  (alookup s.applications a).getD []

/-- Lines 399-402: the static value handed to `_resolve_secret` for one pair. -/
def staticValueFor (static : StaticSecrets) (a k : String) : Option String :=
  match alookup (static.for_application a) k with
  | some ss => ss.value
  | none => none

/-- Result of `_resolve_secrets`: resolved values per application plus the
pull secret taken from the static secrets. -/
structure ResolvedSecrets where
  applications : AppMap
  pull_secret : Option PullSecret

/-- Embedding of `SecretsService._resolve_secret` (lines 421-484): resolve a single
declaration given the already-resolved table, the current Vault value and the
static value.  Returns `none` when the declaration cannot be resolved yet. -/
def _resolve_secret (config : Secret) (resolved : AppMap)
    (current_value static_value : Option String) (regenerate : Bool) :
    Option String :=
  if truthy config.value then config.value
  else
    match config.copy_rules with
    | some cr =>
        let other := lookup2 resolved cr.application cr.key
        if truthy other then other else none
    | none =>
        match config.generate with
        | some g =>
            if truthy current_value && !regenerate then current_value
            else
              match g with
              | .fromSource source gen =>
                  match lookup2 resolved config.application source with
                  | some o => if o = "" then none else some (gen o)
                  | none => none
              | .simple fresh => some fresh
        | none => if truthy static_value then static_value else current_value

/-- One full pass of the `while unresolved` loop body of `_resolve_secrets`
(lines 394-413): resolve each pending declaration in order against the
growing resolved table; return the new table and the declarations still
pending (in order).  A result that is `None` or empty is falsy at line 410
and leaves the declaration pending. -/
def resolvePass (vault : AppMap) (static : StaticSecrets) (regenerate : Bool) :
    List Secret → AppMap → AppMap × List Secret
  | [], resolved => (resolved, [])
  | config :: rest, resolved =>
      let current_value := lookup2 vault config.application config.key
      let static_value := staticValueFor static config.application config.key
      match _resolve_secret config resolved current_value static_value regenerate with
      | some s =>
          if s = "" then
            let r := resolvePass vault static regenerate rest resolved
            (r.1, config :: r.2)
          else
            resolvePass vault static regenerate rest
              (insert2 resolved config.application config.key s)
      | none =>
          let r := resolvePass vault static regenerate rest resolved
          (r.1, config :: r.2)

/-- The `while unresolved` loop of `_resolve_secrets` (lines 392-416): run
passes until nothing is pending; if a pass does not strictly shrink the
pending count, fail with the still-pending declarations
(`UnresolvedSecretsError`).  The fuel is the iteration cap the spec asks for;
with fuel `secrets.length` it never runs out before the guard fires, because
the pending count strictly decreases on every continued iteration. -/
def resolveLoop (vault : AppMap) (static : StaticSecrets) (regenerate : Bool) :
    Nat → List Secret → AppMap → Except (List Secret) AppMap
  | _, [], resolved => .ok resolved
  | 0, pending, _ => .error pending
  | fuel + 1, pending, resolved =>
      let r := resolvePass vault static regenerate pending resolved
      if pending.length ≤ r.2.length then .error r.2
      else resolveLoop vault static regenerate fuel r.2 r.1

/-- Line 388-389: `if not static_secrets: static_secrets = StaticSecrets()`. -/
def defaultStatic (s : Option StaticSecrets) : StaticSecrets :=
  s.getD { applications := [], pull_secret := none }

/-- Embedding of `SecretsService._resolve_secrets` (lines 349-419). -/
def _resolve_secrets (secrets : List Secret) (vault_secrets : AppMap)
    (static_secrets : Option StaticSecrets) (regenerate : Bool) :
    Except (List Secret) ResolvedSecrets :=
  let static := defaultStatic static_secrets
  match resolveLoop vault_secrets static regenerate secrets.length secrets [] with
  | .error u => .error u
  | .ok resolved =>
      .ok { applications := resolved, pull_secret := static.pull_secret }

/-- One Vault mutation, modelling the three `VaultClient` calls the service
makes (`store_application_secret`, `update_application_secret`,
`delete_application_secret`; the client itself is outside `src/`, its
contract is taken from spec section 6). -/
inductive VaultOp where
  | store (application : String) (values : SMap)
  | update (application : String) (key value : String)
  | delete (application : String)
deriving DecidableEq

/-- Concatenated image of a list under `f` (Python nested list building). -/
def cmap {α β : Type} (l : List α) (f : α → List β) : List β :=
  (l.map f).foldr (· ++ ·) []

/-- Python `==` on `dict[str, str]`: equality as finite maps. -/
def dictEq (m1 m2 : SMap) : Bool :=
  m1.all (fun kv => alookup m2 kv.1 == some kv.2)
    && m2.all (fun kv => alookup m1 kv.1 == some kv.2)

/-- Embedding of `SecretsService._sync_application_secrets` (lines 486-517): create any
application missing from Vault wholesale, otherwise update every key whose
resolved value differs from the Vault value. -/
def _sync_application_secrets (vault_secrets : AppMap) (resolvedApps : AppMap) :
    List VaultOp :=
  cmap resolvedApps (fun av =>
    match alookup vault_secrets av.1 with
    | none => [VaultOp.store av.1 av.2]
    | some vault_app_secrets =>
        av.2.filterMap (fun kv =>
          if alookup vault_app_secrets kv.1 = some kv.2 then none
          else some (VaultOp.update av.1 kv.1 kv.2)))

/-- Embedding of `SecretsService._sync_pull_secret` (lines 519-543): serialize the pull
secret once, store it under `.dockerconfigjson` in the `pull-secret`
application, and rewrite it as a unit when it differs from the snapshot. -/
def _sync_pull_secret (vault_secrets : AppMap) (pull_secret : PullSecret) :
    List VaultOp :=
  let value := pull_secret.to_dockerconfigjson
  let secret : SMap := [(".dockerconfigjson", value)]
  match alookup vault_secrets "pull-secret" with
  | none => [VaultOp.store "pull-secret" secret]
  | some m => if dictEq secret m then [] else [VaultOp.store "pull-secret" secret]

/-- Embedding of `SecretsService._clean_vault_secrets` (lines 268-303): delete every Vault
application absent from the resolved set (skipping `pull-secret` when the
environment has a pull secret); for applications present in both, drop the
snapshot keys absent from the resolved set and rewrite the application from
the (stale) snapshot values. -/
def _clean_vault_secrets (vault_secrets : AppMap) (resolvedApps : AppMap)
    (has_pull_secret : Bool) : List VaultOp :=
  cmap vault_secrets (fun av =>
    match alookup resolvedApps av.1 with
    | none =>
        if av.1 = "pull-secret" && has_pull_secret then []
        else [VaultOp.delete av.1]
    | some expected =>
        let to_delete := av.2.filter (fun kv => (alookup expected kv.1).isNone)
        if to_delete.isEmpty then []
        else [VaultOp.store av.1
          (av.2.filter (fun kv => (alookup expected kv.1).isSome))])

/-- The mutation sequence of `SecretsService.sync` (lines 253-266) after
resolution: application secrets, then the pull secret when present with
registries, then optional cleanup. -/
def syncOps (vault_secrets : AppMap) (resolved : ResolvedSecrets)
    (delete : Bool) : List VaultOp :=
  _sync_application_secrets vault_secrets resolved.applications
    ++ (match resolved.pull_secret with
        | some p => if p.registries.isEmpty then [] else
            _sync_pull_secret vault_secrets p
        | none => [])
    ++ (if delete then
          _clean_vault_secrets vault_secrets resolved.applications
            resolved.pull_secret.isSome
        else [])

/-- Effect of one Vault operation on the store contents (spec section 6:
store/update/delete semantics of the Vault client). -/
def applyOp (store : AppMap) : VaultOp → AppMap
  | .store a vs => ainsert store a vs
  | .update a k v => insert2 store a k v
  | .delete a => aerase store a

/-- Effect of a sequence of Vault operations on the store contents. -/
def applyOps (store : AppMap) (ops : List VaultOp) : AppMap :=
  ops.foldl applyOp store

/-- One invocation of `SecretsService.sync` (lines 211-266) against a given
store snapshot: resolve, emit the mutations, and return them together with
the store contents after they are applied. -/
def syncOnce (secrets : List Secret) (static_secrets : Option StaticSecrets)
    (regenerate delete : Bool) (vault_secrets : AppMap) :
    Except (List Secret) (List VaultOp × AppMap) :=
  match _resolve_secrets secrets vault_secrets static_secrets regenerate with
  | .error u => .error u
  | .ok resolved =>
      let ops := syncOps vault_secrets resolved delete
      .ok (ops, applyOps vault_secrets ops)

/-- Inner loop of `SecretsService.audit` (lines 94-100): classify the keys of
one application against the (evolving) Vault mapping for that application,
returning the missing pairs, the mismatched pairs, and what is left of the
Vault mapping after consuming the matched keys (`del vault_secrets[app][key]`). -/
def auditKeys (appName : String) :
    List (String × String) → SMap →
      List (String × String) × List (String × String) × SMap
  | [], inner => ([], [], inner)
  | (key, secret) :: rest, inner =>
      match alookup inner key with
      | none =>
          let r := auditKeys appName rest inner
          ((appName, key) :: r.1, r.2.1, r.2.2)
      | some w =>
          let r := auditKeys appName rest (aerase inner key)
          if w = secret then (r.1, r.2.1, r.2.2)
          else (r.1, (appName, key) :: r.2.1, r.2.2)

/-- Outer loop of `SecretsService.audit` (lines 93-100): walk the resolved
applications, collecting missing and mismatched pairs and consuming matched
Vault entries. -/
def auditApps :
    List (String × SMap) → AppMap →
      List (String × String) × List (String × String) × AppMap
  | [], vault => ([], [], vault)
  | (appName, values) :: rest, vault =>
      match alookup vault appName with
      | none =>
          let r := auditApps rest vault
          (values.map (fun kv => (appName, kv.1)) ++ r.1, r.2.1, r.2.2)
      | some inner =>
          let k := auditKeys appName values inner
          let r := auditApps rest (ainsert vault appName k.2.2)
          (k.1 ++ r.1, k.2.1 ++ r.2.1, r.2.2)

/-- All `(application, key)` pairs of a nested mapping, in iteration order
(line 101: `[(a, k) for a, lv in d.items() for k in lv]`). -/
def flatPairs (m : AppMap) : List (String × String) :=
  cmap m (fun av => av.2.map (fun kv => (av.1, kv.1)))

/-- The classification computed by `SecretsService.audit` (lines 90-101):
missing, mismatched, and unknown `(application, key)` pairs, in discovery
order. -/
def auditClassify (resolvedApps : AppMap) (vault_secrets : AppMap) :
    List (String × String) × List (String × String) × List (String × String) :=
  let r := auditApps resolvedApps vault_secrets
  (r.1, r.2.1, flatPairs r.2.2)

/-- Python `f"\x7bapp_name\x7d \x7bkey\x7d"` as used in the audit report. -/
def fmtPair (p : String × String) : String := p.1 ++ " " ++ p.2

/-- One section of the audit report (lines 105-111). -/
def reportSection (header : String) (entries : List (String × String)) : String :=
  if entries.isEmpty then ""
  else header ++ "\n• " ++ String.intercalate "\n• " (entries.map fmtPair) ++ "\n"

/-- The comparison-and-report core of `SecretsService.audit` (lines 89-112),
taking the resolved applications and the Vault snapshot (the surrounding
configuration/Vault I/O is external to the core, spec section 6). -/
def audit (resolvedApps : AppMap) (vault_secrets : AppMap) : String :=
  let c := auditClassify resolvedApps vault_secrets
  reportSection "Missing secrets:" c.1
    ++ reportSection "Incorrect secrets:" c.2.1
    ++ reportSection "Unknown secrets in Vault:" c.2.2

/-- The resolved table holds a nonempty value for `(a, k)`. -/
def truthyAt (resolved : AppMap) (a k : String) : Prop :=
  ∃ v, lookup2 resolved a k = some v ∧ v ≠ ""

/-- The current Vault value `_resolve_secrets` feeds to `_resolve_secret`
for declaration `c` (line 398/406). -/
def currentOf (vault : AppMap) (c : Secret) : Option String :=
  lookup2 vault c.application c.key

/-- The static value `_resolve_secrets` feeds to `_resolve_secret` for
declaration `c` (lines 399-402). -/
def staticOf (static : StaticSecrets) (c : Secret) : Option String :=
  staticValueFor static c.application c.key

/-- Declaration `c` resolves on the next attempt given resolved table
`resolved`: the dependency of its rule (if any) is present and every value its
branch can produce is nonempty. -/
def Ready (regenerate : Bool) (resolved : AppMap)
    (current_value static_value : Option String) (c : Secret) : Prop :=
  if truthy c.value then True
  else
    match c.copy_rules with
    | some cr => truthyAt resolved cr.application cr.key
    | none =>
        match c.generate with
        | some g =>
            (truthy current_value && !regenerate) = true ∨
            (match g with
             | .fromSource source gen =>
                 truthyAt resolved c.application source ∧ ∀ s, s ≠ "" → gen s ≠ ""
             | .simple fresh => fresh ≠ "")
        | none => truthy static_value = true ∨ truthy current_value = true

/-- Declaration `c` is locally resolvable within `secrets`: whatever its rule
needs is declared (for copy / generate-from-source) or available (static or
current value for rule-less declarations), and generated values are
nonempty. -/
def BaseResolvable (regenerate : Bool) (secrets : List Secret)
    (current_value static_value : Option String) (c : Secret) : Prop :=
  if truthy c.value then True
  else
    match c.copy_rules with
    | some cr => ∃ d ∈ secrets, d.application = cr.application ∧ d.key = cr.key
    | none =>
        match c.generate with
        | some g =>
            (truthy current_value && !regenerate) = true ∨
            (match g with
             | .fromSource source gen =>
                 (∃ d ∈ secrets, d.application = c.application ∧ d.key = source)
                   ∧ ∀ s, s ≠ "" → gen s ≠ ""
             | .simple fresh => fresh ≠ "")
        | none => truthy static_value = true ∨ truthy current_value = true

/-- The pair `(a, k)` has a declaration in `secrets`. -/
def DeclaredIn (secrets : List Secret) (a k : String) : Prop :=
  ∃ c ∈ secrets, c.application = a ∧ c.key = k

/-- The `(application, key)` pairs the audit classifies as missing: declared
pairs absent from the Vault snapshot, in discovery order. -/
def auditMissing (resolvedApps vault_secrets : AppMap) : List (String × String) :=
  (flatPairs resolvedApps).filter (fun q => (lookup2 vault_secrets q.1 q.2).isNone)

/-- The pairs the audit classifies as mismatched: present in both maps with
different values, in discovery order. -/
def auditMismatch (resolvedApps vault_secrets : AppMap) : List (String × String) :=
  (flatPairs resolvedApps).filter (fun q =>
    match lookup2 vault_secrets q.1 q.2, lookup2 resolvedApps q.1 q.2 with
    | some w, some s => decide (¬ w = s)
    | _, _ => false)

/-- The pairs the audit classifies as unknown: snapshot pairs that are not
resolved, in snapshot order. -/
def auditUnknown (resolvedApps vault_secrets : AppMap) : List (String × String) :=
  (flatPairs vault_secrets).filter (fun q => (lookup2 resolvedApps q.1 q.2).isNone)

section Lemmas

/-! ### Association-list lemmas -/

theorem alookup_ainsert_self {α : Type} (m : List (String × α)) (k : String) (v : α) :
    alookup (ainsert m k v) k = some v := by
  induction m with
  | nil => simp [ainsert, alookup]
  | cons hd tl ih =>
      obtain ⟨k', w⟩ := hd
      by_cases h : k' = k
      · simp [ainsert, h, alookup]
      · simp [ainsert, h, alookup, ih]

theorem alookup_ainsert_ne {α : Type} (m : List (String × α)) (k k' : String) (v : α)
    (h : k' ≠ k) : alookup (ainsert m k v) k' = alookup m k' := by
  induction m with
  | nil => simp [ainsert, alookup, Ne.symm h]
  | cons hd tl ih =>
      obtain ⟨k₀, w⟩ := hd
      by_cases h0 : k₀ = k
      · subst h0
        simp [ainsert, alookup, Ne.symm h]
      · simp only [ainsert, if_neg h0, alookup]
        by_cases h1 : k₀ = k'
        · simp [h1]
        · simp [h1, ih]

theorem lookup2_nil (a k : String) : lookup2 [] a k = none := rfl

theorem lookup2_insert2_self (m : AppMap) (a k : String) (v : String) :
    lookup2 (insert2 m a k v) a k = some v := by
  unfold lookup2 insert2
  rw [alookup_ainsert_self]
  simp [alookup_ainsert_self]

theorem lookup2_insert2_ne (m : AppMap) (a k a' k' : String) (v : String)
    (h : ¬(a' = a ∧ k' = k)) :
    lookup2 (insert2 m a' k' v) a k = lookup2 m a k := by
  unfold lookup2 insert2
  by_cases ha : a = a'
  · subst ha
    rw [alookup_ainsert_self]
    have hk : k ≠ k' := fun hk => h ⟨rfl, hk.symm⟩
    simp only [Option.getD_some]
    rw [alookup_ainsert_ne _ _ _ _ hk]
  · rw [alookup_ainsert_ne m a' a _ ha]

theorem alookup_aerase_ne {α : Type} (m : List (String × α)) (k k' : String)
    (h : k' ≠ k) : alookup (aerase m k) k' = alookup m k' := by
  induction m with
  | nil => simp [aerase]
  | cons hd tl ih =>
      obtain ⟨k₀, w⟩ := hd
      by_cases h0 : k₀ = k
      · subst h0
        simp [aerase, alookup, Ne.symm h]
      · simp only [aerase, if_neg h0, alookup]
        by_cases h1 : k₀ = k'
        · simp [h1]
        · simp [h1, ih]

/-- Keys of an association list. -/
theorem alookup_eq_none_of_not_mem_keys {α : Type} (m : List (String × α)) (k : String)
    (h : k ∉ m.map Prod.fst) : alookup m k = none := by
  induction m with
  | nil => rfl
  | cons hd tl ih =>
      simp only [List.map_cons, List.mem_cons] at h
      push_neg at h
      simp only [alookup]
      rw [if_neg (Ne.symm h.1)]
      exact ih h.2

theorem not_mem_keys_of_alookup_eq_none {α : Type} (m : List (String × α)) (k : String)
    (h : alookup m k = none) : k ∉ m.map Prod.fst := by
  induction m with
  | nil => simp
  | cons hd tl ih =>
      obtain ⟨k₀, w⟩ := hd
      by_cases h0 : k₀ = k
      · simp [alookup, h0] at h
      · simp only [alookup, if_neg h0] at h
        simp only [List.map_cons, List.mem_cons]
        push_neg
        exact ⟨Ne.symm h0, ih h⟩

theorem aerase_sublist {α : Type} (m : List (String × α)) (k : String) :
    (aerase m k).Sublist m := by
  induction m with
  | nil => simp [aerase]
  | cons hd tl ih =>
      obtain ⟨k₀, w⟩ := hd
      by_cases h0 : k₀ = k
      · simp only [aerase, if_pos h0]
        exact List.sublist_cons_self _ _
      · simp only [aerase, if_neg h0]
        exact ih.cons₂ _

theorem keys_aerase_nodup {α : Type} (m : List (String × α)) (k : String)
    (h : (m.map Prod.fst).Nodup) : ((aerase m k).map Prod.fst).Nodup :=
  ((aerase_sublist m k).map Prod.fst).nodup h

theorem aerase_eq_filter_of_nodup {α : Type} (m : List (String × α)) (k : String)
    (h : (m.map Prod.fst).Nodup) :
    aerase m k = m.filter (fun kv => decide (kv.1 ≠ k)) := by
  induction m with
  | nil => rfl
  | cons hd tl ih =>
      obtain ⟨k₀, w⟩ := hd
      simp only [List.map_cons, List.nodup_cons] at h
      by_cases h0 : k₀ = k
      · subst h0
        simp only [aerase, if_pos rfl, List.filter_cons]
        have hpred : (decide (((k₀, w) : String × α).1 ≠ k₀)) = false := by simp
        rw [hpred]
        simp only [Bool.false_eq_true, if_false]
        symm
        apply List.filter_eq_self.2
        intro kv hkv
        simp only [decide_eq_true_eq]
        intro hk
        exact h.1 (hk ▸ List.mem_map_of_mem Prod.fst hkv)
      · simp only [aerase, if_neg h0, List.filter_cons]
        have hpred : (decide (((k₀, w) : String × α).1 ≠ k)) = true := by simp [h0]
        rw [hpred]
        simp only [if_true]
        rw [ih h.2]

theorem alookup_aerase_self_of_nodup {α : Type} (m : List (String × α)) (k : String)
    (h : (m.map Prod.fst).Nodup) : alookup (aerase m k) k = none := by
  rw [aerase_eq_filter_of_nodup m k h]
  apply alookup_eq_none_of_not_mem_keys
  intro hk
  simp only [List.mem_map] at hk
  rcases hk with ⟨kv, hkv, hfst⟩
  rw [List.mem_filter] at hkv
  have := hkv.2
  simp only [decide_eq_true_eq] at this
  exact this (by rw [hfst])

theorem mem_cmap {α β : Type} (l : List α) (f : α → List β) (b : β) :
    b ∈ cmap l f ↔ ∃ x ∈ l, b ∈ f x := by
  induction l with
  | nil => simp [cmap]
  | cons hd tl ih =>
      simp only [cmap, List.map_cons, List.foldr_cons, List.mem_append]
      constructor
      · rintro (h | h)
        · exact ⟨hd, List.mem_cons_self hd tl, h⟩
        · rcases (ih).1 h with ⟨x, hx, hb⟩
          exact ⟨x, List.mem_cons_of_mem hd hx, hb⟩
      · rintro ⟨x, hx, hb⟩
        rcases List.mem_cons.1 hx with rfl | hx
        · exact Or.inl hb
        · exact Or.inr ((ih).2 ⟨x, hx, hb⟩)

theorem cmap_cons {α β : Type} (x : α) (l : List α) (f : α → List β) :
    cmap (x :: l) f = f x ++ cmap l f := by
  simp [cmap]

theorem truthy_some_iff (s : String) : truthy (some s) = true ↔ s ≠ "" := by
  simp [truthy]

theorem truthy_eq_true_iff (o : Option String) :
    truthy o = true ↔ ∃ s, o = some s ∧ s ≠ "" := by
  cases o with
  | none => simp [truthy]
  | some s => simp [truthy]

/-! ### Sync helper lemmas -/

theorem sync_app_secrets_no_delete (vault resolvedApps : AppMap) (a : String) :
    VaultOp.delete a ∉ _sync_application_secrets vault resolvedApps := by
  intro h
  rw [_sync_application_secrets, mem_cmap] at h
  obtain ⟨av, hav, hmem⟩ := h
  rcases hh : alookup vault av.1 with _ | vas
  · rw [hh] at hmem
    simp at hmem
  · rw [hh] at hmem
    rw [List.mem_filterMap] at hmem
    obtain ⟨kv, hkv, heq⟩ := hmem
    by_cases hc : alookup vas kv.1 = some kv.2
    · simp [hc] at heq
    · simp [hc] at heq

theorem sync_pull_no_delete (vault : AppMap) (p : PullSecret) (a : String) :
    VaultOp.delete a ∉ _sync_pull_secret vault p := by
  intro h
  rw [_sync_pull_secret] at h
  rcases hh : alookup vault "pull-secret" with _ | m
  · rw [hh] at h
    simp at h
  · rw [hh] at h
    by_cases hd : dictEq [(".dockerconfigjson", p.to_dockerconfigjson)] m = true
    · simp [hd] at h
    · simp only [Bool.not_eq_true] at hd
      simp [hd] at h

theorem clean_no_delete_pull (vault resolvedApps : AppMap) :
    VaultOp.delete "pull-secret" ∉ _clean_vault_secrets vault resolvedApps true := by
  intro h
  rw [_clean_vault_secrets, mem_cmap] at h
  obtain ⟨av, hav, hmem⟩ := h
  rcases hh : alookup resolvedApps av.1 with _ | expected
  · rw [hh] at hmem
    by_cases hps : av.1 = "pull-secret"
    · simp [hps] at hmem
    · rw [if_neg (by simp [hps])] at hmem
      simp only [List.mem_singleton, VaultOp.delete.injEq] at hmem
      exact hps hmem.symm
  · rw [hh] at hmem
    by_cases ht : (av.2.filter (fun kv => (alookup expected kv.1).isNone)).isEmpty
    · simp [ht] at hmem
    · simp only [Bool.not_eq_true] at ht
      simp [ht] at hmem

end Lemmas

/-! ### Claim theorems -/

/-- C5: with `delete = true` and a resolved pull secret present, `sync` never
issues a delete of the `pull-secret` Vault entry, whatever the snapshot and
resolved application set are (lines 259-266 and 289-294: `_clean_vault_secrets`
skips the `pull-secret` application when `has_pull_secret` holds, and the
other phases only store or update). -/
theorem C5_pull_secret_deletion_protection (vault_secrets apps : AppMap)
    (p : PullSecret) :
    VaultOp.delete "pull-secret" ∉
      syncOps vault_secrets { applications := apps, pull_secret := some p } true := by
  intro h
  simp only [syncOps, List.mem_append] at h
  rcases h with (h | h) | h
  · exact sync_app_secrets_no_delete vault_secrets apps _ h
  · have h' : VaultOp.delete "pull-secret" ∈
        (if p.registries.isEmpty then ([] : List VaultOp)
         else _sync_pull_secret vault_secrets p) := h
    by_cases hr : p.registries.isEmpty
    · rw [if_pos hr] at h'
      simp at h'
    · rw [if_neg hr] at h'
      exact sync_pull_no_delete vault_secrets p _ h'
  · exact clean_no_delete_pull vault_secrets apps h

/-- C5 witness: with a snapshot holding a `pull-secret` entry and a stray
application, an empty resolved application set, a present pull secret and
`delete = true`, the emitted operations never delete the `pull-secret`
entry. -/
theorem C5_pull_secret_deletion_protection_witness :
    VaultOp.delete "pull-secret" ∉
      syncOps [("pull-secret", [(".dockerconfigjson", "x")]), ("stray", [("a", "b")])]
        { applications := [],
          pull_secret := some { registries := [("docker.io", ⟨"u", "p", "e"⟩)] } }
        true :=
  C5_pull_secret_deletion_protection _ _ _

/-- C6: `_resolve_secret` applies the rule kinds in strict precedence order
(lines 461-481): a nonempty literal `value` wins over everything; otherwise a
copy rule is used (succeeding exactly when its source is already resolved to
a nonempty value) even when a generate rule is also present; otherwise a
generate rule is used (reusing a nonempty current value unless regenerating,
else consuming its resolved source for the from-source variant, else
generating directly); only with no rule at all does it fall back to the
static value and then the current value. -/
theorem C6_resolve_secret_precedence (config : Secret) (resolved : AppMap)
    (current_value static_value : Option String) (regenerate : Bool) :
    (truthy config.value = true →
      _resolve_secret config resolved current_value static_value regenerate
        = config.value)
    ∧ (truthy config.value = false → ∀ cr, config.copy_rules = some cr →
      _resolve_secret config resolved current_value static_value regenerate
        = (if truthy (lookup2 resolved cr.application cr.key) then
             lookup2 resolved cr.application cr.key
           else none))
    ∧ (truthy config.value = false → config.copy_rules = none →
        ∀ g, config.generate = some g →
      (truthy current_value = true → regenerate = false →
        _resolve_secret config resolved current_value static_value regenerate
          = current_value)
      ∧ ((truthy current_value = false ∨ regenerate = true) →
        _resolve_secret config resolved current_value static_value regenerate
          = (match g with
             | .simple fresh => some fresh
             | .fromSource source gen =>
                 match lookup2 resolved config.application source with
                 | some o => if o = "" then none else some (gen o)
                 | none => none)))
    ∧ (truthy config.value = false → config.copy_rules = none →
        config.generate = none →
      _resolve_secret config resolved current_value static_value regenerate
        = (if truthy static_value then static_value else current_value)) := by
  refine ⟨?_, ?_, ?_, ?_⟩
  · intro h
    simp [_resolve_secret, h]
  · intro hv cr hcr
    simp [_resolve_secret, hv, hcr]
  · intro hv hcopy g hg
    constructor
    · intro hcur hregen
      subst hregen
      simp [_resolve_secret, hv, hcopy, hg, hcur]
    · intro hfalse
      have hcond : (truthy current_value && !regenerate) = false := by
        rcases hfalse with h | h
        · simp [h]
        · simp [h]
      cases g with
      | simple fresh => simp [_resolve_secret, hv, hcopy, hg, hcond]
      | fromSource source gen => simp [_resolve_secret, hv, hcopy, hg, hcond]
  · intro hv hcopy hg
    simp [_resolve_secret, hv, hcopy, hg]

/-- C6 witness: concrete precedence checks — a literal beats a present copy
rule, a copy rule with an unresolved source yields `None` even though a
generate rule is present, and a rule-less declaration falls back to the
static value. -/
theorem C6_resolve_secret_precedence_witness :
    _resolve_secret
        { application := "a", key := "k", value := some "lit",
          copy_rules := some ⟨"b", "j"⟩,
          generate := some (.simple "gen") } [("b", [("j", "src")])]
        (some "cur") (some "st") false
      = some "lit"
    ∧ _resolve_secret
        { application := "a", key := "k", value := none,
          copy_rules := some ⟨"b", "j"⟩,
          generate := some (.simple "gen") } []
        (some "cur") (some "st") true
      = none
    ∧ _resolve_secret
        { application := "a", key := "k", value := none, copy_rules := none,
          generate := some (.simple "gen") } [] none (some "st") false
      = some "gen"
    ∧ _resolve_secret
        { application := "a", key := "k", value := none, copy_rules := none,
          generate := none } [] (some "cur") (some "st") false
      = some "st" := by
  refine ⟨?_, ?_, ?_, ?_⟩
  · exact (C6_resolve_secret_precedence _ _ _ _ _).1 (by decide)
  · have h := (C6_resolve_secret_precedence
      { application := "a", key := "k", value := none,
        copy_rules := some ⟨"b", "j"⟩, generate := some (.simple "gen") }
      [] (some "cur") (some "st") true).2.1 (by decide) ⟨"b", "j"⟩ rfl
    rw [h]
    rfl
  · have h := ((C6_resolve_secret_precedence
      { application := "a", key := "k", value := none, copy_rules := none,
        generate := some (.simple "gen") }
      [] none (some "st") false).2.2.1 (by decide) rfl
      (.simple "gen") rfl).2 (Or.inl (by decide))
    rw [h]
  · have h := (C6_resolve_secret_precedence
      { application := "a", key := "k", value := none, copy_rules := none,
        generate := none }
      [] (some "cur") (some "st") false).2.2.2 (by decide) rfl rfl
    rw [h]
    rfl

/-- C7 counterexample: a generate-rule declaration whose current store value
is the *empty* string (a value present in Vault) is regenerated even with
`regenerate = false`, because pydantic `SecretStr` truthiness treats an empty
secret as absent (line 470) — so its resolved value does not equal the
current value, contradicting the claim as stated. -/
theorem C7_counterexample :
    _resolve_secret
        { application := "g", key := "k", value := none, copy_rules := none,
          generate := some (.simple "fresh") } [] (some "") none false
      = some "fresh"
    ∧ _resolve_secret
        { application := "g", key := "k", value := none, copy_rules := none,
          generate := some (.simple "fresh") } [] (some "") none false
      ≠ some "" := by
  exact ⟨rfl, by decide⟩

/-- C7 (amended): for every generate-rule declaration whose current store
value is *nonempty*: with `regenerate = false` the resolved value is the
current value unchanged; with `regenerate = true` the current value is not
reused (the result is the same as if there were no current value) and the
value is produced by the generation function (lines 469-479). -/
theorem C7_generated_secret_stability (config : Secret) (resolved : AppMap)
    (current_value static_value : Option String) (g : GenerateRules)
    (hv : truthy config.value = false) (hc : config.copy_rules = none)
    (hg : config.generate = some g) (hcur : truthy current_value = true) :
    (_resolve_secret config resolved current_value static_value false
      = current_value)
    ∧ (_resolve_secret config resolved current_value static_value true
      = _resolve_secret config resolved none static_value true)
    ∧ (∀ fresh, g = .simple fresh →
        _resolve_secret config resolved current_value static_value true
          = some fresh)
    ∧ (∀ source gen, g = .fromSource source gen →
        _resolve_secret config resolved current_value static_value true
          = (match lookup2 resolved config.application source with
             | some o => if o = "" then none else some (gen o)
             | none => none)) := by
  refine ⟨?_, ?_, ?_, ?_⟩
  · simp [_resolve_secret, hv, hc, hg, hcur]
  · cases g with
    | simple fresh => simp [_resolve_secret, hv, hc, hg]
    | fromSource source gen => simp [_resolve_secret, hv, hc, hg]
  · intro fresh hfresh
    subst hfresh
    simp [_resolve_secret, hv, hc, hg]
  · intro source gen hgen
    subst hgen
    simp [_resolve_secret, hv, hc, hg]

/-- C7 witness: a concrete generate-rule declaration with nonempty current
value `"old"` keeps it under `regenerate = false` and produces the
generator value `"fresh"` under `regenerate = true`. -/
theorem C7_generated_secret_stability_witness :
    _resolve_secret
        { application := "g", key := "k", value := none, copy_rules := none,
          generate := some (.simple "fresh") } [] (some "old") none false
      = some "old"
    ∧ _resolve_secret
        { application := "g", key := "k", value := none, copy_rules := none,
          generate := some (.simple "fresh") } [] (some "old") none true
      = some "fresh" := by
  constructor
  · exact (C7_generated_secret_stability _ [] (some "old") none (.simple "fresh")
      (by decide) rfl rfl (by decide)).1
  · exact (C7_generated_secret_stability _ [] (some "old") none (.simple "fresh")
      (by decide) rfl rfl (by decide)).2.2.1 "fresh" rfl

/-- C8: `_sync_pull_secret` (lines 519-543) serializes the pull secret once
into a single composite value under the `.dockerconfigjson` key of the
`pull-secret` application, compares it against the snapshot entry as one
unit (Python dict equality), and emits exactly one whole-application store
operation when absent or different, and none otherwise — never per-field
operations. -/
theorem C8_pull_secret_atomicity (vault_secrets : AppMap) (p : PullSecret) :
    (_sync_pull_secret vault_secrets p = []
      ∨ _sync_pull_secret vault_secrets p
          = [VaultOp.store "pull-secret"
              [(".dockerconfigjson", p.to_dockerconfigjson)]])
    ∧ (alookup vault_secrets "pull-secret" = none →
        _sync_pull_secret vault_secrets p
          = [VaultOp.store "pull-secret"
              [(".dockerconfigjson", p.to_dockerconfigjson)]])
    ∧ (∀ m, alookup vault_secrets "pull-secret" = some m →
        (dictEq [(".dockerconfigjson", p.to_dockerconfigjson)] m = true →
          _sync_pull_secret vault_secrets p = [])
        ∧ (dictEq [(".dockerconfigjson", p.to_dockerconfigjson)] m = false →
          _sync_pull_secret vault_secrets p
            = [VaultOp.store "pull-secret"
                [(".dockerconfigjson", p.to_dockerconfigjson)]])) := by
  refine ⟨?_, ?_, ?_⟩
  · rw [_sync_pull_secret]
    rcases hh : alookup vault_secrets "pull-secret" with _ | m
    · exact Or.inr rfl
    · by_cases hd : dictEq [(".dockerconfigjson", p.to_dockerconfigjson)] m = true
      · exact Or.inl (by simp [hd])
      · simp only [Bool.not_eq_true] at hd
        exact Or.inr (by simp [hd])
  · intro hh
    rw [_sync_pull_secret, hh]
  · intro m hh
    constructor
    · intro hd
      rw [_sync_pull_secret, hh]
      simp [hd]
    · intro hd
      rw [_sync_pull_secret, hh]
      simp [hd]

/-- C8 witness: a one-field difference (one registry password changed)
between the stored pull secret and the resolved pull secret produces exactly
one whole-composite store operation, and an unchanged pull secret produces
none. -/
theorem C8_pull_secret_atomicity_witness :
    _sync_pull_secret
        [("pull-secret",
          [(".dockerconfigjson",
            PullSecret.to_dockerconfigjson
              { registries := [("docker.io", ⟨"user", "pw1", "e@x"⟩)] })])]
        { registries := [("docker.io", ⟨"user", "pw2", "e@x"⟩)] }
      = [VaultOp.store "pull-secret"
          [(".dockerconfigjson",
            PullSecret.to_dockerconfigjson
              { registries := [("docker.io", ⟨"user", "pw2", "e@x"⟩)] })]]
    ∧ _sync_pull_secret
        [("pull-secret",
          [(".dockerconfigjson",
            PullSecret.to_dockerconfigjson
              { registries := [("docker.io", ⟨"user", "pw1", "e@x"⟩)] })])]
        { registries := [("docker.io", ⟨"user", "pw1", "e@x"⟩)] }
      = [] := by
  have h1 := (C8_pull_secret_atomicity
    [("pull-secret",
      [(".dockerconfigjson",
        PullSecret.to_dockerconfigjson
          { registries := [("docker.io", ⟨"user", "pw1", "e@x"⟩)] })])]
    { registries := [("docker.io", ⟨"user", "pw2", "e@x"⟩)] }).2.2
    [(".dockerconfigjson",
      PullSecret.to_dockerconfigjson
        { registries := [("docker.io", ⟨"user", "pw1", "e@x"⟩)] })]
    (by rfl)
  have h2 := (C8_pull_secret_atomicity
    [("pull-secret",
      [(".dockerconfigjson",
        PullSecret.to_dockerconfigjson
          { registries := [("docker.io", ⟨"user", "pw1", "e@x"⟩)] })])]
    { registries := [("docker.io", ⟨"user", "pw1", "e@x"⟩)] }).2.2
    [(".dockerconfigjson",
      PullSecret.to_dockerconfigjson
        { registries := [("docker.io", ⟨"user", "pw1", "e@x"⟩)] })]
    (by rfl)
  exact ⟨h1.2 (by decide), h2.1 (by decide)⟩

/-- C3 (code bug): syncing twice with identical inputs is *not* free of
mutations on the second run.  With one declaration `app/k = "new"`, a
snapshot holding `k = "old"` plus a stray key, and `delete = true`, the
first run updates `k` to `"new"` but then `_clean_vault_secrets` rewrites
the application from the stale snapshot values (line 301 stores `values`
taken from `vault_secrets` captured before the updates), reverting `k` to
`"old"`; the second run must update `k` again, emitting a mutation.  This
also contradicts the docstring of `sync` itself ("Any incorrect secrets will be
replaced with the correct value"). -/
theorem C3_sync_second_run_mutates :
    syncOnce [{ application := "app", key := "k", value := some "new",
                copy_rules := none, generate := none }] none false true
        [("app", [("k", "old"), ("extra", "x")])]
      = .ok ([VaultOp.update "app" "k" "new",
              VaultOp.store "app" [("k", "old")]],
             [("app", [("k", "old")])])
    ∧ syncOnce [{ application := "app", key := "k", value := some "new",
                  copy_rules := none, generate := none }] none false true
        [("app", [("k", "old")])]
      = .ok ([VaultOp.update "app" "k" "new"],
             [("app", [("k", "new")])])
    ∧ ([VaultOp.update "app" "k" "new"] : List VaultOp) ≠ [] := by
  exact ⟨rfl, rfl, by decide⟩

/-! ### Resolver pass lemmas -/

section PassLemmas

variable (vault : AppMap) (static : StaticSecrets) (regenerate : Bool)

theorem resolvePass_cons (config : Secret) (rest : List Secret) (R : AppMap) :
    resolvePass vault static regenerate (config :: rest) R =
      match _resolve_secret config R (currentOf vault config) (staticOf static config)
          regenerate with
      | some s =>
          if s = "" then
            ((resolvePass vault static regenerate rest R).1,
             config :: (resolvePass vault static regenerate rest R).2)
          else
            resolvePass vault static regenerate rest
              (insert2 R config.application config.key s)
      | none =>
          ((resolvePass vault static regenerate rest R).1,
           config :: (resolvePass vault static regenerate rest R).2) := rfl

theorem resolvePass_cons_none (config : Secret) (rest : List Secret) (R : AppMap)
    (h : _resolve_secret config R (currentOf vault config) (staticOf static config)
        regenerate = none) :
    resolvePass vault static regenerate (config :: rest) R =
      ((resolvePass vault static regenerate rest R).1,
       config :: (resolvePass vault static regenerate rest R).2) := by
  rw [resolvePass_cons]
  simp only [h]

theorem resolvePass_cons_empty (config : Secret) (rest : List Secret) (R : AppMap)
    (h : _resolve_secret config R (currentOf vault config) (staticOf static config)
        regenerate = some "") :
    resolvePass vault static regenerate (config :: rest) R =
      ((resolvePass vault static regenerate rest R).1,
       config :: (resolvePass vault static regenerate rest R).2) := by
  rw [resolvePass_cons]
  simp only [h]
  simp

theorem resolvePass_cons_some (config : Secret) (rest : List Secret) (R : AppMap)
    (s : String)
    (h : _resolve_secret config R (currentOf vault config) (staticOf static config)
        regenerate = some s) (hs : s ≠ "") :
    resolvePass vault static regenerate (config :: rest) R =
      resolvePass vault static regenerate rest
        (insert2 R config.application config.key s) := by
  rw [resolvePass_cons]
  simp only [h]
  rw [if_neg hs]

theorem resolvePass_sublist (p : List Secret) (R : AppMap) :
    (resolvePass vault static regenerate p R).2.Sublist p := by
  induction p generalizing R with
  | nil => simp [resolvePass]
  | cons config rest ih =>
      rcases hres : _resolve_secret config R (currentOf vault config)
          (staticOf static config) regenerate with _ | s
      · rw [resolvePass_cons_none vault static regenerate config rest R hres]
        exact List.Sublist.cons₂ config (ih R)
      · by_cases hs : s = ""
        · subst hs
          rw [resolvePass_cons_empty vault static regenerate config rest R hres]
          exact List.Sublist.cons₂ config (ih R)
        · rw [resolvePass_cons_some vault static regenerate config rest R s hres hs]
          exact (ih _).cons config

theorem truthyAt_insert2 (R : AppMap) (a k a' k' : String) (v : String)
    (h : truthyAt R a k) (hv : v ≠ "") : truthyAt (insert2 R a' k' v) a k := by
  by_cases hp : a' = a ∧ k' = k
  · exact ⟨v, by rw [← hp.1, ← hp.2, lookup2_insert2_self], hv⟩
  · obtain ⟨w, hw, hne⟩ := h
    exact ⟨w, by rw [lookup2_insert2_ne R a k a' k' v hp]; exact hw, hne⟩

theorem resolvePass_truthyAt_mono (p : List Secret) (R : AppMap) (a k : String)
    (h : truthyAt R a k) :
    truthyAt (resolvePass vault static regenerate p R).1 a k := by
  induction p generalizing R with
  | nil => exact h
  | cons config rest ih =>
      rcases hres : _resolve_secret config R (currentOf vault config)
          (staticOf static config) regenerate with _ | s
      · rw [resolvePass_cons_none vault static regenerate config rest R hres]
        exact ih R h
      · by_cases hs : s = ""
        · subst hs
          rw [resolvePass_cons_empty vault static regenerate config rest R hres]
          exact ih R h
        · rw [resolvePass_cons_some vault static regenerate config rest R s hres hs]
          exact ih _ (truthyAt_insert2 R a k _ _ s h hs)

theorem resolvePass_new_pairs (p : List Secret) (R : AppMap) (a k : String) :
    lookup2 (resolvePass vault static regenerate p R).1 a k = lookup2 R a k
      ∨ ∃ c ∈ p, c.application = a ∧ c.key = k := by
  induction p generalizing R with
  | nil => exact Or.inl rfl
  | cons config rest ih =>
      rcases hres : _resolve_secret config R (currentOf vault config)
          (staticOf static config) regenerate with _ | s
      · rw [resolvePass_cons_none vault static regenerate config rest R hres]
        rcases ih R with h | ⟨c, hc, hp⟩
        · exact Or.inl h
        · exact Or.inr ⟨c, List.mem_cons_of_mem config hc, hp⟩
      · by_cases hs : s = ""
        · subst hs
          rw [resolvePass_cons_empty vault static regenerate config rest R hres]
          rcases ih R with h | ⟨c, hc, hp⟩
          · exact Or.inl h
          · exact Or.inr ⟨c, List.mem_cons_of_mem config hc, hp⟩
        · rw [resolvePass_cons_some vault static regenerate config rest R s hres hs]
          rcases ih (insert2 R config.application config.key s) with h | ⟨c, hc, hp⟩
          · by_cases hp : config.application = a ∧ config.key = k
            · exact Or.inr ⟨config, List.mem_cons_self config rest, hp⟩
            · rw [h, lookup2_insert2_ne R a k _ _ s hp]
              exact Or.inl rfl
          · exact Or.inr ⟨c, List.mem_cons_of_mem config hc, hp⟩

theorem resolvePass_decl (secrets p : List Secret) (R : AppMap)
    (hps : ∀ x ∈ p, x ∈ secrets)
    (hdecl : ∀ a k, lookup2 R a k ≠ none → DeclaredIn secrets a k) :
    ∀ a k, lookup2 (resolvePass vault static regenerate p R).1 a k ≠ none →
      DeclaredIn secrets a k := by
  intro a k h
  rcases resolvePass_new_pairs vault static regenerate p R a k with heq | ⟨c, hcp, hpair⟩
  · exact hdecl a k (heq ▸ h)
  · exact ⟨c, hps c hcp, hpair⟩

theorem resolve_some_of_ready (c : Secret) (R : AppMap)
    (cur st : Option String)
    (h : Ready regenerate R cur st c) :
    ∃ s, _resolve_secret c R cur st regenerate = some s ∧ s ≠ "" := by
  by_cases hv : truthy c.value = true
  · obtain ⟨s, hs, hne⟩ := (truthy_eq_true_iff c.value).1 hv
    exact ⟨s, by simp [_resolve_secret, hs, truthy, hne], hne⟩
  · have hv' : truthy c.value = false := by rwa [Bool.not_eq_true] at hv
    simp only [Ready, hv', Bool.false_eq_true, if_false] at h
    rcases hcr : c.copy_rules with _ | cr
    · simp only [hcr] at h
      rcases hg : c.generate with _ | g
      · simp only [hg] at h
        rcases hst : truthy st with _ | _
        · have hcur : truthy cur = true := by
            rcases h with h1 | h1
            · rw [hst] at h1
              exact absurd h1 (by simp)
            · exact h1
          obtain ⟨s, hs, hne⟩ := (truthy_eq_true_iff cur).1 hcur
          refine ⟨s, ?_, hne⟩
          have hres : _resolve_secret c R cur st regenerate = cur := by
            simp [_resolve_secret, hv', hcr, hg, hst]
          rw [hres, hs]
        · obtain ⟨s, hs, hne⟩ := (truthy_eq_true_iff st).1 hst
          refine ⟨s, ?_, hne⟩
          have hres : _resolve_secret c R cur st regenerate = st := by
            simp [_resolve_secret, hv', hcr, hg, hst]
          rw [hres, hs]
      · simp only [hg] at h
        by_cases hcond : (truthy cur && !regenerate) = true
        · have hcur : truthy cur = true := by
            rw [Bool.and_eq_true] at hcond
            exact hcond.1
          obtain ⟨s, hs, hne⟩ := (truthy_eq_true_iff cur).1 hcur
          refine ⟨s, ?_, hne⟩
          have hres : _resolve_secret c R cur st regenerate = cur := by
            simp [_resolve_secret, hv', hcr, hg, hcond]
          rw [hres, hs]
        · have hrest := h.resolve_left hcond
          have hcond' : (truthy cur && !regenerate) = false := by
            rwa [Bool.not_eq_true] at hcond
          cases g with
          | simple fresh =>
              exact ⟨fresh, by simp [_resolve_secret, hv', hcr, hg, hcond'], hrest⟩
          | fromSource source gen =>
              obtain ⟨⟨o, ho, hone⟩, hgen⟩ := hrest
              exact ⟨gen o, by simp [_resolve_secret, hv', hcr, hg, hcond', ho, hone],
                hgen o hone⟩
    · simp only [hcr] at h
      obtain ⟨w, hw, hne⟩ := h
      refine ⟨w, ?_, hne⟩
      have htr : truthy (lookup2 R cr.application cr.key) = true := by
        rw [hw]
        exact (truthy_some_iff w).2 hne
      have hres : _resolve_secret c R cur st regenerate
          = lookup2 R cr.application cr.key := by
        simp [_resolve_secret, hv', hcr, htr]
      rw [hres, hw]

theorem ready_mono (c : Secret) (R R' : AppMap) (cur st : Option String)
    (h : Ready regenerate R cur st c)
    (hmono : ∀ a k, truthyAt R a k → truthyAt R' a k) :
    Ready regenerate R' cur st c := by
  unfold Ready at h ⊢
  by_cases hv : truthy c.value = true
  · simp only [hv, if_true]
  · have hv' : truthy c.value = false := by rwa [Bool.not_eq_true] at hv
    simp only [hv', Bool.false_eq_true, if_false] at h ⊢
    rcases hcr : c.copy_rules with _ | cr
    · simp only [hcr] at h ⊢
      rcases hg : c.generate with _ | g
      · simp only [hg] at h ⊢
        exact h
      · simp only [hg] at h ⊢
        rcases h with h1 | h1
        · exact Or.inl h1
        · refine Or.inr ?_
          cases g with
          | simple fresh => exact h1
          | fromSource source gen => exact ⟨hmono _ _ h1.1, h1.2⟩
    · simp only [hcr] at h ⊢
      exact hmono _ _ h

/-- A pending declaration that is ready (relative to a base table whose
truthy entries persist into `R`) is resolved by the pass: it is no longer
pending afterwards and its pair holds a nonempty value. -/
theorem resolvePass_resolves (p : List Secret) (R Rbase : AppMap)
    (hmono : ∀ a k, truthyAt Rbase a k → truthyAt R a k)
    (c : Secret) (hc : c ∈ p)
    (hready : Ready regenerate Rbase (currentOf vault c) (staticOf static c) c) :
    c ∉ (resolvePass vault static regenerate p R).2
    ∧ truthyAt (resolvePass vault static regenerate p R).1 c.application c.key := by
  induction p generalizing R with
  | nil => exact absurd hc (List.not_mem_nil c)
  | cons config rest ih =>
      by_cases hceq : c = config
      · subst hceq
        have hreadyR : Ready regenerate R (currentOf vault c) (staticOf static c) c :=
          ready_mono regenerate c Rbase R _ _ hready hmono
        obtain ⟨s, hres, hs⟩ := resolve_some_of_ready regenerate c R _ _ hreadyR
        rw [resolvePass_cons_some vault static regenerate c rest R s hres hs]
        have hmono' : ∀ a k, truthyAt Rbase a k →
            truthyAt (insert2 R c.application c.key s) a k :=
          fun a k h => truthyAt_insert2 R a k _ _ s (hmono a k h) hs
        by_cases hcrest : c ∈ rest
        · exact ih _ hmono' hcrest
        · constructor
          · intro hmem
            exact hcrest ((resolvePass_sublist vault static regenerate rest _).subset hmem)
          · exact resolvePass_truthyAt_mono vault static regenerate rest _ _ _
              ⟨s, lookup2_insert2_self R c.application c.key s, hs⟩
      · have hcrest : c ∈ rest := by
          rcases List.mem_cons.1 hc with h | h
          · exact absurd h hceq
          · exact h
        rcases hres : _resolve_secret config R (currentOf vault config)
            (staticOf static config) regenerate with _ | s
        · rw [resolvePass_cons_none vault static regenerate config rest R hres]
          have hrec := ih R hmono hcrest
          refine ⟨?_, hrec.2⟩
          intro hmem
          rcases List.mem_cons.1 hmem with h | h
          · exact hceq h
          · exact hrec.1 h
        · by_cases hs : s = ""
          · subst hs
            rw [resolvePass_cons_empty vault static regenerate config rest R hres]
            have hrec := ih R hmono hcrest
            refine ⟨?_, hrec.2⟩
            intro hmem
            rcases List.mem_cons.1 hmem with h | h
            · exact hceq h
            · exact hrec.1 h
          · rw [resolvePass_cons_some vault static regenerate config rest R s hres hs]
            have hmono' : ∀ a k, truthyAt Rbase a k →
                truthyAt (insert2 R config.application config.key s) a k :=
              fun a k h => truthyAt_insert2 R a k _ _ s (hmono a k h) hs
            exact ih _ hmono' hcrest

/-- A pending declaration no longer pending after a pass has a nonempty
resolved value for its pair. -/
theorem resolvePass_removed_truthy (p : List Secret) (R : AppMap) (c : Secret)
    (hc : c ∈ p) (hnot : c ∉ (resolvePass vault static regenerate p R).2) :
    truthyAt (resolvePass vault static regenerate p R).1 c.application c.key := by
  induction p generalizing R with
  | nil => exact absurd hc (List.not_mem_nil c)
  | cons config rest ih =>
      rcases hres : _resolve_secret config R (currentOf vault config)
          (staticOf static config) regenerate with _ | s
      · rw [resolvePass_cons_none vault static regenerate config rest R hres] at hnot ⊢
        have hcrest : c ∈ rest := by
          rcases List.mem_cons.1 hc with h | h
          · exact absurd (h ▸ List.mem_cons_self config _) hnot
          · exact h
        have hnotrest : c ∉ (resolvePass vault static regenerate rest R).2 :=
          fun h => hnot (List.mem_cons_of_mem config h)
        exact ih R hcrest hnotrest
      · by_cases hs : s = ""
        · subst hs
          rw [resolvePass_cons_empty vault static regenerate config rest R hres] at hnot ⊢
          have hcrest : c ∈ rest := by
            rcases List.mem_cons.1 hc with h | h
            · exact absurd (h ▸ List.mem_cons_self config _) hnot
            · exact h
          have hnotrest : c ∉ (resolvePass vault static regenerate rest R).2 :=
            fun h => hnot (List.mem_cons_of_mem config h)
          exact ih R hcrest hnotrest
        · rw [resolvePass_cons_some vault static regenerate config rest R s hres hs]
            at hnot ⊢
          by_cases hceq : c = config
          · subst hceq
            exact resolvePass_truthyAt_mono vault static regenerate rest _ _ _
              ⟨s, lookup2_insert2_self R c.application c.key s, hs⟩
          · have hcrest : c ∈ rest := by
              rcases List.mem_cons.1 hc with h | h
              · exact absurd h hceq
              · exact h
            exact ih _ hcrest hnot

end PassLemmas

theorem truthy_none : truthy none = false := rfl

theorem length_lt_of_sublist_not_mem {α : Type} {u p : List α} {c : α}
    (hsub : u.Sublist p) (hcp : c ∈ p) (hcu : c ∉ u) : u.length < p.length := by
  induction hsub with
  | slnil => exact absurd hcp (List.not_mem_nil c)
  | cons a hsub ih =>
      rename_i u' p'
      rcases List.mem_cons.1 hcp with rfl | hcp'
      · exact Nat.lt_succ_of_le hsub.length_le
      · exact Nat.lt_succ_of_lt (ih hcp' hcu)
  | cons₂ a hsub ih =>
      rename_i u' p'
      simp only [List.mem_cons, not_or] at hcu
      rcases List.mem_cons.1 hcp with hca | hcp'
      · exact absurd hca hcu.1
      · simpa using Nat.succ_lt_succ (ih hcp' hcu.2)

theorem exists_min_by_rank (p : List Secret) (f : Secret → Nat) (h : p ≠ []) :
    ∃ c ∈ p, ∀ d ∈ p, f c ≤ f d := by
  induction p with
  | nil => exact absurd rfl h
  | cons hd tl ih =>
      rcases eq_or_ne tl [] with rfl | htl
      · refine ⟨hd, List.mem_cons_self hd [], ?_⟩
        intro d hd'
        rcases List.mem_cons.1 hd' with rfl | hd2
        · exact Nat.le_refl _
        · exact absurd hd2 (List.not_mem_nil d)
      · obtain ⟨c, hc, hmin⟩ := ih htl
        by_cases hle : f hd ≤ f c
        · refine ⟨hd, List.mem_cons_self hd tl, ?_⟩
          intro d hd'
          rcases List.mem_cons.1 hd' with rfl | hd2
          · exact Nat.le_refl _
          · exact Nat.le_trans hle (hmin d hd2)
        · refine ⟨c, List.mem_cons_of_mem hd hc, ?_⟩
          intro d hd'
          rcases List.mem_cons.1 hd' with rfl | hd2
          · exact Nat.le_of_lt (Nat.lt_of_not_le hle)
          · exact hmin d hd2

section LoopLemmas

variable (vault : AppMap) (static : StaticSecrets) (regenerate : Bool)

theorem resolveLoop_nil (fuel : Nat) (R : AppMap) :
    resolveLoop vault static regenerate fuel [] R = .ok R := by
  cases fuel <;> rfl

theorem resolveLoop_zero (p : List Secret) (R : AppMap) (h : p ≠ []) :
    resolveLoop vault static regenerate 0 p R = .error p := by
  cases p with
  | nil => exact absurd rfl h
  | cons config rest => rfl

theorem resolveLoop_succ (fuel : Nat) (config : Secret) (rest : List Secret) (R : AppMap) :
    resolveLoop vault static regenerate (fuel + 1) (config :: rest) R =
      (if (config :: rest).length
          ≤ (resolvePass vault static regenerate (config :: rest) R).2.length
       then .error (resolvePass vault static regenerate (config :: rest) R).2
       else resolveLoop vault static regenerate fuel
         (resolvePass vault static regenerate (config :: rest) R).2
         (resolvePass vault static regenerate (config :: rest) R).1) := rfl

/-- A pending copy declaration whose target pair is declared nowhere stays
pending through a pass, as long as the resolved table only holds declared
pairs (the copy branch reads only the resolved table, line 465). -/
theorem resolvePass_undeclared_copy_pending (secrets : List Secret) (c : Secret)
    (cr : CopyRules)
    (hv : truthy c.value = false) (hcr : c.copy_rules = some cr)
    (hundecl : ¬ DeclaredIn secrets cr.application cr.key) :
    ∀ (p : List Secret) (R : AppMap),
      (∀ x ∈ p, x ∈ secrets) →
      (∀ a k, lookup2 R a k ≠ none → DeclaredIn secrets a k) →
      c ∈ p →
      c ∈ (resolvePass vault static regenerate p R).2 := by
  have hnone_of : ∀ (R' : AppMap),
      (∀ a k, lookup2 R' a k ≠ none → DeclaredIn secrets a k) →
      _resolve_secret c R' (currentOf vault c) (staticOf static c) regenerate = none := by
    intro R' hdecl'
    have hnone : lookup2 R' cr.application cr.key = none := by
      by_cases hx : lookup2 R' cr.application cr.key = none
      · exact hx
      · exact absurd (hdecl' _ _ hx) hundecl
    simp [_resolve_secret, hv, hcr, hnone, truthy_none]
  intro p
  induction p with
  | nil => intro R _ _ hc; exact absurd hc (List.not_mem_nil c)
  | cons config rest ih =>
      intro R hps hdecl hc
      have hps' : ∀ x ∈ rest, x ∈ secrets :=
        fun x hx => hps x (List.mem_cons_of_mem config hx)
      by_cases hceq : c = config
      · subst hceq
        rw [resolvePass_cons_none vault static regenerate c rest R (hnone_of R hdecl)]
        exact List.mem_cons_self _ _
      · have hcrest : c ∈ rest := by
          rcases List.mem_cons.1 hc with h | h
          · exact absurd h hceq
          · exact h
        rcases hres : _resolve_secret config R (currentOf vault config)
            (staticOf static config) regenerate with _ | s
        · rw [resolvePass_cons_none vault static regenerate config rest R hres]
          exact List.mem_cons_of_mem config (ih R hps' hdecl hcrest)
        · by_cases hs : s = ""
          · subst hs
            rw [resolvePass_cons_empty vault static regenerate config rest R hres]
            exact List.mem_cons_of_mem config (ih R hps' hdecl hcrest)
          · rw [resolvePass_cons_some vault static regenerate config rest R s hres hs]
            have hdecl' : ∀ a k,
                lookup2 (insert2 R config.application config.key s) a k ≠ none →
                DeclaredIn secrets a k := by
              intro a k h
              by_cases hp : config.application = a ∧ config.key = k
              · exact ⟨config, hps config (List.mem_cons_self config rest), hp⟩
              · rw [lookup2_insert2_ne R a k _ _ s hp] at h
                exact hdecl a k h
            exact ih _ hps' hdecl' hcrest

theorem resolveLoop_error_of_undeclared_copy (secrets : List Secret) (c : Secret)
    (cr : CopyRules)
    (hv : truthy c.value = false) (hcr : c.copy_rules = some cr)
    (hundecl : ¬ DeclaredIn secrets cr.application cr.key) :
    ∀ (fuel : Nat) (p : List Secret) (R : AppMap),
      (∀ x ∈ p, x ∈ secrets) →
      (∀ a k, lookup2 R a k ≠ none → DeclaredIn secrets a k) →
      c ∈ p →
      ∃ l, resolveLoop vault static regenerate fuel p R = .error l ∧ c ∈ l := by
  intro fuel
  induction fuel with
  | zero =>
      intro p R hps hdecl hc
      exact ⟨p, resolveLoop_zero vault static regenerate p R (List.ne_nil_of_mem hc), hc⟩
  | succ fuel ih =>
      intro p R hps hdecl hc
      cases p with
      | nil => exact absurd hc (List.not_mem_nil c)
      | cons config rest =>
          have hcpend := resolvePass_undeclared_copy_pending vault static regenerate
            secrets c cr hv hcr hundecl (config :: rest) R hps hdecl hc
          rw [resolveLoop_succ]
          by_cases hlen : (config :: rest).length
              ≤ (resolvePass vault static regenerate (config :: rest) R).2.length
          · rw [if_pos hlen]
            exact ⟨_, rfl, hcpend⟩
          · rw [if_neg hlen]
            exact ih _ _
              (fun x hx => hps x
                ((resolvePass_sublist vault static regenerate (config :: rest) R).subset hx))
              (resolvePass_decl vault static regenerate secrets (config :: rest) R hps hdecl)
              hcpend

/-- Through one pass, the two declarations of a copy cycle stay pending and
their pairs stay absent from the resolved table, provided no other pending
declaration claims their pairs. -/
theorem resolvePass_cycle (A B : Secret)
    (hvA : truthy A.value = false)
    (hcA : A.copy_rules = some ⟨B.application, B.key⟩)
    (hvB : truthy B.value = false)
    (hcB : B.copy_rules = some ⟨A.application, A.key⟩) :
    ∀ (p : List Secret) (R : AppMap),
      (∀ d ∈ p, (d.application = A.application ∧ d.key = A.key → d = A)
        ∧ (d.application = B.application ∧ d.key = B.key → d = B)) →
      lookup2 R A.application A.key = none →
      lookup2 R B.application B.key = none →
      (lookup2 (resolvePass vault static regenerate p R).1 A.application A.key = none
        ∧ lookup2 (resolvePass vault static regenerate p R).1 B.application B.key = none)
      ∧ (∀ d ∈ p, (d = A ∨ d = B) →
          d ∈ (resolvePass vault static regenerate p R).2) := by
  have hresA : ∀ (R' : AppMap), lookup2 R' B.application B.key = none →
      _resolve_secret A R' (currentOf vault A) (staticOf static A) regenerate = none := by
    intro R' hR'
    simp [_resolve_secret, hvA, hcA, hR', truthy_none]
  have hresB : ∀ (R' : AppMap), lookup2 R' A.application A.key = none →
      _resolve_secret B R' (currentOf vault B) (staticOf static B) regenerate = none := by
    intro R' hR'
    simp [_resolve_secret, hvB, hcB, hR', truthy_none]
  intro p
  induction p with
  | nil =>
      intro R hprot hRA hRB
      exact ⟨⟨hRA, hRB⟩, fun d hd => absurd hd (List.not_mem_nil d)⟩
  | cons config rest ih =>
      intro R hprot hRA hRB
      have hprot' : ∀ d ∈ rest, (d.application = A.application ∧ d.key = A.key → d = A)
          ∧ (d.application = B.application ∧ d.key = B.key → d = B) :=
        fun d hd => hprot d (List.mem_cons_of_mem config hd)
      by_cases hA : config = A
      · subst hA
        rw [resolvePass_cons_none vault static regenerate config rest R (hresA R hRB)]
        obtain ⟨⟨h1, h2⟩, h3⟩ := ih R hprot' hRA hRB
        refine ⟨⟨h1, h2⟩, ?_⟩
        intro d hd hdAB
        rcases List.mem_cons.1 hd with rfl | hdrest
        · exact List.mem_cons_self _ _
        · exact List.mem_cons_of_mem _ (h3 d hdrest hdAB)
      · by_cases hB : config = B
        · subst hB
          rw [resolvePass_cons_none vault static regenerate config rest R (hresB R hRA)]
          obtain ⟨⟨h1, h2⟩, h3⟩ := ih R hprot' hRA hRB
          refine ⟨⟨h1, h2⟩, ?_⟩
          intro d hd hdAB
          rcases List.mem_cons.1 hd with rfl | hdrest
          · exact List.mem_cons_self _ _
          · exact List.mem_cons_of_mem _ (h3 d hdrest hdAB)
        · have hpA : ¬(config.application = A.application ∧ config.key = A.key) :=
            fun hp => hA ((hprot config (List.mem_cons_self config rest)).1 hp)
          have hpB : ¬(config.application = B.application ∧ config.key = B.key) :=
            fun hp => hB ((hprot config (List.mem_cons_self config rest)).2 hp)
          have hmem_case : ∀ u : List Secret,
              (∀ d ∈ rest, (d = A ∨ d = B) → d ∈ u) →
              ∀ d ∈ config :: rest, (d = A ∨ d = B) → d ∈ config :: u := by
            intro u hu d hd hdAB
            rcases List.mem_cons.1 hd with rfl | hdrest
            · rcases hdAB with rfl | rfl
              · exact absurd rfl hA
              · exact absurd rfl hB
            · exact List.mem_cons_of_mem _ (hu d hdrest hdAB)
          rcases hres : _resolve_secret config R (currentOf vault config)
              (staticOf static config) regenerate with _ | s
          · rw [resolvePass_cons_none vault static regenerate config rest R hres]
            obtain ⟨⟨h1, h2⟩, h3⟩ := ih R hprot' hRA hRB
            exact ⟨⟨h1, h2⟩, hmem_case _ h3⟩
          · by_cases hs : s = ""
            · subst hs
              rw [resolvePass_cons_empty vault static regenerate config rest R hres]
              obtain ⟨⟨h1, h2⟩, h3⟩ := ih R hprot' hRA hRB
              exact ⟨⟨h1, h2⟩, hmem_case _ h3⟩
            · rw [resolvePass_cons_some vault static regenerate config rest R s hres hs]
              have hRA' : lookup2 (insert2 R config.application config.key s)
                  A.application A.key = none := by
                rw [lookup2_insert2_ne R _ _ _ _ s hpA]
                exact hRA
              have hRB' : lookup2 (insert2 R config.application config.key s)
                  B.application B.key = none := by
                rw [lookup2_insert2_ne R _ _ _ _ s hpB]
                exact hRB
              obtain ⟨⟨h1, h2⟩, h3⟩ := ih _ hprot' hRA' hRB'
              refine ⟨⟨h1, h2⟩, ?_⟩
              intro d hd hdAB
              rcases List.mem_cons.1 hd with rfl | hdrest
              · rcases hdAB with rfl | rfl
                · exact absurd rfl hA
                · exact absurd rfl hB
              · exact h3 d hdrest hdAB

theorem resolveLoop_cycle (A B : Secret)
    (hvA : truthy A.value = false)
    (hcA : A.copy_rules = some ⟨B.application, B.key⟩)
    (hvB : truthy B.value = false)
    (hcB : B.copy_rules = some ⟨A.application, A.key⟩) :
    ∀ (fuel : Nat) (p : List Secret) (R : AppMap),
      (∀ d ∈ p, (d.application = A.application ∧ d.key = A.key → d = A)
        ∧ (d.application = B.application ∧ d.key = B.key → d = B)) →
      lookup2 R A.application A.key = none →
      lookup2 R B.application B.key = none →
      A ∈ p → B ∈ p →
      ∃ l, resolveLoop vault static regenerate fuel p R = .error l
        ∧ A ∈ l ∧ B ∈ l := by
  intro fuel
  induction fuel with
  | zero =>
      intro p R hprot hRA hRB hA hB
      exact ⟨p, resolveLoop_zero vault static regenerate p R (List.ne_nil_of_mem hA),
        hA, hB⟩
  | succ fuel ih =>
      intro p R hprot hRA hRB hA hB
      cases p with
      | nil => exact absurd hA (List.not_mem_nil A)
      | cons config rest =>
          obtain ⟨⟨h1, h2⟩, h3⟩ := resolvePass_cycle vault static regenerate A B
            hvA hcA hvB hcB (config :: rest) R hprot hRA hRB
          have hAu := h3 A hA (Or.inl rfl)
          have hBu := h3 B hB (Or.inr rfl)
          rw [resolveLoop_succ]
          by_cases hlen : (config :: rest).length
              ≤ (resolvePass vault static regenerate (config :: rest) R).2.length
          · rw [if_pos hlen]
            exact ⟨_, rfl, hAu, hBu⟩
          · rw [if_neg hlen]
            exact ih _ _
              (fun d hd => hprot d
                ((resolvePass_sublist vault static regenerate (config :: rest) R).subset hd))
              h1 h2 hAu hBu

end LoopLemmas

/-- C1: a resolution pass that makes no progress fails immediately with
exactly the still-pending declarations (lines 414-415; the `Except` result
means no partial resolved set is ever returned), and a declaration set
containing a copy cycle — A copies from the pair of B and B from the pair of A, no
other declaration claiming those pairs — always yields the
unresolvable-secrets error containing both cyclic declarations; the loop is
a total function, so it never diverges. -/
theorem C1_no_progress_and_cycle_error :
    (∀ (vault : AppMap) (static : StaticSecrets) (regenerate : Bool) (fuel : Nat)
       (pending : List Secret) (resolved : AppMap),
       pending ≠ [] →
       pending.length ≤ (resolvePass vault static regenerate pending resolved).2.length →
       resolveLoop vault static regenerate (fuel + 1) pending resolved
           = .error (resolvePass vault static regenerate pending resolved).2
         ∧ (resolvePass vault static regenerate pending resolved).2 = pending)
    ∧ (∀ (vault_secrets : AppMap) (static_secrets : Option StaticSecrets)
         (regenerate : Bool) (secrets : List Secret) (A B : Secret),
       A ∈ secrets → B ∈ secrets →
       truthy A.value = false → truthy B.value = false →
       A.copy_rules = some ⟨B.application, B.key⟩ →
       B.copy_rules = some ⟨A.application, A.key⟩ →
       (∀ d ∈ secrets, (d.application = A.application ∧ d.key = A.key → d = A)
         ∧ (d.application = B.application ∧ d.key = B.key → d = B)) →
       ∃ l, _resolve_secrets secrets vault_secrets static_secrets regenerate
           = .error l ∧ A ∈ l ∧ B ∈ l) := by
  constructor
  · intro vault static regenerate fuel pending resolved hne hstuck
    cases pending with
    | nil => exact absurd rfl hne
    | cons config rest =>
        rw [resolveLoop_succ, if_pos hstuck]
        exact ⟨rfl,
          (resolvePass_sublist vault static regenerate (config :: rest) resolved).eq_of_length
            (Nat.le_antisymm
              (resolvePass_sublist vault static regenerate (config :: rest) resolved).length_le
              hstuck)⟩
  · intro vault_secrets static_secrets regenerate secrets A B hA hB hvA hvB hcA hcB hprot
    obtain ⟨l, hl, hAl, hBl⟩ := resolveLoop_cycle vault_secrets
      (defaultStatic static_secrets) regenerate A B hvA hcA hvB hcB
      secrets.length secrets [] hprot (lookup2_nil _ _) (lookup2_nil _ _) hA hB
    refine ⟨l, ?_, hAl, hBl⟩
    simp [_resolve_secrets, hl]

/-- C1 witness: the two-declaration cycle `a/k` copies `b/j` and `b/j`
copies `a/k` raises the unresolvable-secrets error containing both, and a
one-declaration set that makes no progress in the first pass errors with
exactly that pending declaration. -/
theorem C1_no_progress_and_cycle_error_witness :
    (∃ l, _resolve_secrets
        [{ application := "a", key := "k", value := none,
           copy_rules := some ⟨"b", "j"⟩, generate := none },
         { application := "b", key := "j", value := none,
           copy_rules := some ⟨"a", "k"⟩, generate := none }] [] none false
      = .error l
      ∧ ({ application := "a", key := "k", value := none,
           copy_rules := some ⟨"b", "j"⟩, generate := none } : Secret) ∈ l
      ∧ ({ application := "b", key := "j", value := none,
           copy_rules := some ⟨"a", "k"⟩, generate := none } : Secret) ∈ l)
    ∧ resolveLoop [] { applications := [], pull_secret := none } false 1
        [{ application := "a", key := "k", value := none,
           copy_rules := none, generate := none }] []
      = .error
        [{ application := "a", key := "k", value := none,
           copy_rules := none, generate := none }] := by
  constructor
  · refine C1_no_progress_and_cycle_error.2 [] none false _ _ _
      (List.mem_cons_self _ _)
      (List.mem_cons_of_mem _ (List.mem_cons_self _ _))
      rfl rfl rfl rfl ?_
    intro d hd
    rcases List.mem_cons.1 hd with rfl | hd'
    · constructor
      · intro _
        rfl
      · rintro ⟨h1, h2⟩
        exact absurd h1 (by decide)
    · rcases List.mem_cons.1 hd' with rfl | hd2
      · constructor
        · rintro ⟨h1, h2⟩
          exact absurd h1 (by decide)
        · intro _
          rfl
      · exact absurd hd2 (List.not_mem_nil d)
  · have h := C1_no_progress_and_cycle_error.1 []
      { applications := [], pull_secret := none } false 0
      [{ application := "a", key := "k", value := none,
         copy_rules := none, generate := none }] []
      (by simp) (by decide)
    rw [h.2] at h
    exact h.1

section DagLemmas

variable (vault : AppMap) (static : StaticSecrets) (regenerate : Bool)

/-- A locally resolvable declaration is ready once every declared pair of
strictly lower rank holds a nonempty resolved value. -/
theorem ready_of_base (secrets : List Secret) (rank : String → String → Nat)
    (c : Secret) (R : AppMap)
    (hbase : BaseResolvable regenerate secrets (currentOf vault c) (staticOf static c) c)
    (hrankc : truthy c.value = false →
        (∀ cr, c.copy_rules = some cr →
            rank cr.application cr.key < rank c.application c.key)
      ∧ (∀ source gen, c.copy_rules = none →
            c.generate = some (.fromSource source gen) →
            rank c.application source < rank c.application c.key))
    (hdep : ∀ a k, DeclaredIn secrets a k →
        rank a k < rank c.application c.key → truthyAt R a k) :
    Ready regenerate R (currentOf vault c) (staticOf static c) c := by
  by_cases hv : truthy c.value = true
  · simp [Ready, hv]
  · have hv' : truthy c.value = false := by rwa [Bool.not_eq_true] at hv
    simp only [BaseResolvable, hv', Bool.false_eq_true, if_false] at hbase
    simp only [Ready, hv', Bool.false_eq_true, if_false]
    rcases hcr : c.copy_rules with _ | cr
    · simp only [hcr] at hbase ⊢
      rcases hg : c.generate with _ | g
      · simp only [hg] at hbase ⊢
        exact hbase
      · simp only [hg] at hbase ⊢
        rcases hbase with h1 | h1
        · exact Or.inl h1
        · refine Or.inr ?_
          cases g with
          | simple fresh => exact h1
          | fromSource source gen =>
              obtain ⟨hdecl, hgen⟩ := h1
              exact ⟨hdep _ _ hdecl ((hrankc hv').2 source gen hcr hg), hgen⟩
    · simp only [hcr] at hbase ⊢
      exact hdep _ _ hbase ((hrankc hv').1 cr hcr)

/-- Master lemma for the DAG case: with every declaration locally resolvable
and a rank function decreasing along copy / generate-from-source references
and bounded by `N`, the resolution loop succeeds (with fuel `N` — at most
`N` passes — under rank bookkeeping, or with fuel at least the pending
count), yielding nonempty values at every declared pair and nothing else. -/
theorem resolveLoop_ok_of_dag (secrets : List Secret)
    (rank : String → String → Nat) (N : Nat)
    (Hready : ∀ c ∈ secrets,
        BaseResolvable regenerate secrets (currentOf vault c) (staticOf static c) c)
    (Hrank : ∀ c ∈ secrets, truthy c.value = false →
        (∀ cr, c.copy_rules = some cr →
            rank cr.application cr.key < rank c.application c.key)
      ∧ (∀ source gen, c.copy_rules = none →
            c.generate = some (.fromSource source gen) →
            rank c.application source < rank c.application c.key))
    (Hbound : ∀ c ∈ secrets, rank c.application c.key < N) :
    ∀ (fuel : Nat) (p : List Secret) (R : AppMap),
      (∀ x ∈ p, x ∈ secrets) →
      (∀ c ∈ secrets, c ∈ p ∨ truthyAt R c.application c.key) →
      (∀ a k, lookup2 R a k ≠ none → DeclaredIn secrets a k) →
      (((∀ c ∈ p, N ≤ rank c.application c.key + fuel)
          ∧ (∀ c ∈ secrets, rank c.application c.key + fuel < N →
              truthyAt R c.application c.key))
        ∨ p.length ≤ fuel) →
      ∃ Rf, resolveLoop vault static regenerate fuel p R = .ok Rf
        ∧ (∀ c ∈ secrets, truthyAt Rf c.application c.key)
        ∧ (∀ a k, lookup2 Rf a k ≠ none → DeclaredIn secrets a k) := by
  intro fuel
  induction fuel with
  | zero =>
      intro p R hps hcov hdecl hmode
      have hpnil : p = [] := by
        cases p with
        | nil => rfl
        | cons x xs =>
            exfalso
            rcases hmode with ⟨hf, _⟩ | hf
            · have h1 := hf x (List.mem_cons_self x xs)
              have h2 := Hbound x (hps x (List.mem_cons_self x xs))
              omega
            · simp at hf
      subst hpnil
      refine ⟨R, resolveLoop_nil vault static regenerate 0 R, ?_, hdecl⟩
      intro c hc
      rcases hcov c hc with h | h
      · exact absurd h (List.not_mem_nil c)
      · exact h
  | succ fuel ih =>
      intro p R hps hcov hdecl hmode
      cases p with
      | nil =>
          refine ⟨R, resolveLoop_nil vault static regenerate _ R, ?_, hdecl⟩
          intro c hc
          rcases hcov c hc with h | h
          · exact absurd h (List.not_mem_nil c)
          · exact h
      | cons config rest =>
          obtain ⟨c, hcp, hcmin⟩ := exists_min_by_rank (config :: rest)
            (fun d => rank d.application d.key) (by simp)
          have hcsec := hps c hcp
          have hready : Ready regenerate R (currentOf vault c) (staticOf static c) c := by
            apply ready_of_base vault static regenerate secrets rank c R
              (Hready c hcsec) (Hrank c hcsec)
            intro a k hdecl_ak hlt
            obtain ⟨d, hd, hda, hdk⟩ := hdecl_ak
            by_cases hdp : d ∈ (config :: rest)
            · exfalso
              have hmin := hcmin d hdp
              rw [hda, hdk] at hmin
              omega
            · rcases hcov d hd with h | h
              · exact absurd h hdp
              · rw [← hda, ← hdk]
                exact h
          have hremoved := resolvePass_resolves vault static regenerate
            (config :: rest) R R (fun _ _ h => h) c hcp hready
          have hlt : (resolvePass vault static regenerate (config :: rest) R).2.length
              < (config :: rest).length :=
            length_lt_of_sublist_not_mem
              (resolvePass_sublist vault static regenerate (config :: rest) R)
              hcp hremoved.1
          rw [resolveLoop_succ, if_neg (Nat.not_le.2 hlt)]
          apply ih
          · intro x hx
            exact hps x
              ((resolvePass_sublist vault static regenerate (config :: rest) R).subset hx)
          · intro c' hc'
            rcases hcov c' hc' with h | h
            · by_cases hcu : c' ∈ (resolvePass vault static regenerate (config :: rest) R).2
              · exact Or.inl hcu
              · exact Or.inr (resolvePass_removed_truthy vault static regenerate
                  (config :: rest) R c' h hcu)
            · exact Or.inr
                (resolvePass_truthyAt_mono vault static regenerate (config :: rest) R _ _ h)
          · exact resolvePass_decl vault static regenerate secrets (config :: rest) R
              hps hdecl
          · rcases hmode with ⟨hf, hv⟩ | hf
            · left
              constructor
              · intro c' hc'u
                by_contra hcon
                push_neg at hcon
                have hc'p : c' ∈ (config :: rest) :=
                  (resolvePass_sublist vault static regenerate (config :: rest) R).subset hc'u
                have hc'sec := hps c' hc'p
                have hready' : Ready regenerate R (currentOf vault c')
                    (staticOf static c') c' := by
                  apply ready_of_base vault static regenerate secrets rank c' R
                    (Hready c' hc'sec) (Hrank c' hc'sec)
                  intro a k hdecl_ak hlt'
                  obtain ⟨d, hd, hda, hdk⟩ := hdecl_ak
                  have htr := hv d hd (by rw [hda, hdk]; omega)
                  rw [← hda, ← hdk]
                  exact htr
                exact (resolvePass_resolves vault static regenerate
                  (config :: rest) R R (fun _ _ h => h) c' hc'p hready').1 hc'u
              · intro c' hc'sec hlt'
                by_cases hlt2 : rank c'.application c'.key + (fuel + 1) < N
                · exact resolvePass_truthyAt_mono vault static regenerate
                    (config :: rest) R _ _ (hv c' hc'sec hlt2)
                · have hready' : Ready regenerate R (currentOf vault c')
                      (staticOf static c') c' := by
                    apply ready_of_base vault static regenerate secrets rank c' R
                      (Hready c' hc'sec) (Hrank c' hc'sec)
                    intro a k hdecl_ak hltak
                    obtain ⟨d, hd, hda, hdk⟩ := hdecl_ak
                    have htr := hv d hd (by rw [hda, hdk]; omega)
                    rw [← hda, ← hdk]
                    exact htr
                  rcases hcov c' hc'sec with h | h
                  · exact (resolvePass_resolves vault static regenerate
                      (config :: rest) R R (fun _ _ h => h) c' h hready').2
                  · exact resolvePass_truthyAt_mono vault static regenerate
                      (config :: rest) R _ _ h
            · right
              have := hf
              simp only [List.length_cons] at this
              omega

end DagLemmas

/-- C2 counterexample: a declaration set whose references trivially form a
DAG (it has no copy or generate rule at all) on which `_resolve_secrets`
fails rather than returning one value per declaration — the single
declaration has no rule, no static value and no current value, so the first
pass makes no progress (lines 480-481 then 414-415). -/
theorem C2_counterexample :
    (∀ c ∈ ([{ application := "a", key := "k", value := none,
               copy_rules := none, generate := none }] : List Secret),
        c.copy_rules = none ∧ c.generate = none)
    ∧ _resolve_secrets
        [{ application := "a", key := "k", value := none,
           copy_rules := none, generate := none }] [] none false
      = .error [{ application := "a", key := "k", value := none,
                  copy_rules := none, generate := none }] := by
  constructor
  · intro c hc
    rcases List.mem_cons.1 hc with rfl | h
    · exact ⟨rfl, rfl⟩
    · exact absurd h (List.not_mem_nil c)
  · rfl

/-- C2 (amended): for every declaration set whose copy and
generate-from-source references form a DAG (witnessed by a rank function
decreasing along references and bounded by `N`) *and* in which every
declaration is locally resolvable (its reference targets are declared, its
generators produce nonempty output, and rule-less declarations have a
nonempty static or current value), `_resolve_secrets` succeeds and returns a
resolved set holding exactly one nonempty value for every declared
`(application, key)` pair and nothing else; moreover the loop already
succeeds with fuel `N`, i.e. within at most `N` passes. -/
theorem C2_dag_resolution (vault_secrets : AppMap)
    (static_secrets : Option StaticSecrets) (regenerate : Bool)
    (secrets : List Secret) (rank : String → String → Nat) (N : Nat)
    (Hready : ∀ c ∈ secrets, BaseResolvable regenerate secrets
        (currentOf vault_secrets c) (staticOf (defaultStatic static_secrets) c) c)
    (Hrank : ∀ c ∈ secrets, truthy c.value = false →
        (∀ cr, c.copy_rules = some cr →
            rank cr.application cr.key < rank c.application c.key)
      ∧ (∀ source gen, c.copy_rules = none →
            c.generate = some (.fromSource source gen) →
            rank c.application source < rank c.application c.key))
    (Hbound : ∀ c ∈ secrets, rank c.application c.key < N) :
    (∃ res, _resolve_secrets secrets vault_secrets static_secrets regenerate = .ok res
      ∧ (∀ c ∈ secrets, ∃ v,
          lookup2 res.applications c.application c.key = some v ∧ v ≠ "")
      ∧ (∀ a k, lookup2 res.applications a k ≠ none →
          ∃ c ∈ secrets, c.application = a ∧ c.key = k))
    ∧ (∃ Rf, resolveLoop vault_secrets (defaultStatic static_secrets) regenerate N
        secrets [] = .ok Rf) := by
  have hmain := resolveLoop_ok_of_dag vault_secrets (defaultStatic static_secrets)
    regenerate secrets rank N Hready Hrank Hbound
  constructor
  · obtain ⟨Rf, hok, hvals, hdecl⟩ := hmain secrets.length secrets []
      (fun x hx => hx)
      (fun c hc => Or.inl hc)
      (fun a k h => absurd (lookup2_nil a k) h)
      (Or.inr (Nat.le_refl _))
    refine ⟨{ applications := Rf,
              pull_secret := (defaultStatic static_secrets).pull_secret }, ?_, ?_, ?_⟩
    · simp [_resolve_secrets, hok]
    · intro c hc
      exact hvals c hc
    · intro a k h
      exact hdecl a k h
  · obtain ⟨Rf, hok, _, _⟩ := hmain N secrets []
      (fun x hx => hx)
      (fun c hc => Or.inl hc)
      (fun a k h => absurd (lookup2_nil a k) h)
      (Or.inl ⟨fun c hc => Nat.le_add_left N _,
               fun c hc h => absurd h (by omega)⟩)
    exact ⟨Rf, hok⟩

/-- C2 witness: the two-declaration chain — `db/password` generated,
`api/dbpass` copied from it — resolves successfully (two passes needed,
rank bound `N = 2`), with one nonempty value per declaration and no
extraneous entries. -/
theorem C2_dag_resolution_witness :
    (∃ res, _resolve_secrets
        [{ application := "api", key := "dbpass", value := none,
           copy_rules := some ⟨"db", "password"⟩, generate := none },
         { application := "db", key := "password", value := none,
           copy_rules := none, generate := some (.simple "g3nPass") }] [] none false
      = .ok res
      ∧ (∀ c ∈ ([{ application := "api", key := "dbpass", value := none,
                   copy_rules := some ⟨"db", "password"⟩, generate := none },
                 { application := "db", key := "password", value := none,
                   copy_rules := none,
                   generate := some (.simple "g3nPass") }] : List Secret),
          ∃ v, lookup2 res.applications c.application c.key = some v ∧ v ≠ "")
      ∧ (∀ a k, lookup2 res.applications a k ≠ none →
          ∃ c ∈ ([{ application := "api", key := "dbpass", value := none,
                    copy_rules := some ⟨"db", "password"⟩, generate := none },
                  { application := "db", key := "password", value := none,
                    copy_rules := none,
                    generate := some (.simple "g3nPass") }] : List Secret),
            c.application = a ∧ c.key = k))
    ∧ (∃ Rf, resolveLoop [] (defaultStatic none) false 2
        [{ application := "api", key := "dbpass", value := none,
           copy_rules := some ⟨"db", "password"⟩, generate := none },
         { application := "db", key := "password", value := none,
           copy_rules := none, generate := some (.simple "g3nPass") }] []
      = .ok Rf) := by
  apply C2_dag_resolution [] none false _
    (fun a k => if a = "api" then 1 else 0) 2
  · intro c hc
    rcases List.mem_cons.1 hc with rfl | hc'
    · simp only [BaseResolvable, truthy]
      refine ⟨{ application := "db", key := "password", value := none,
                copy_rules := none, generate := some (.simple "g3nPass") }, ?_, rfl, rfl⟩
      exact List.mem_cons_of_mem _ (List.mem_cons_self _ _)
    · rcases List.mem_cons.1 hc' with rfl | hc2
      · simp [BaseResolvable, truthy, currentOf, staticOf, lookup2, alookup,
          staticValueFor, StaticSecrets.for_application, defaultStatic]
      · exact absurd hc2 (List.not_mem_nil c)
  · intro c hc hv
    rcases List.mem_cons.1 hc with rfl | hc'
    · constructor
      · intro cr hcr
        injection hcr with h
        subst h
        decide
      · intro source gen hnone _
        simp at hnone
    · rcases List.mem_cons.1 hc' with rfl | hc2
      · constructor
        · intro cr hcr
          simp at hcr
        · intro source gen _ hgen
          simp at hgen
      · exact absurd hc2 (List.not_mem_nil c)
  · intro c hc
    rcases List.mem_cons.1 hc with rfl | hc'
    · decide
    · rcases List.mem_cons.1 hc' with rfl | hc2
      · decide
      · exact absurd hc2 (List.not_mem_nil c)

/-- C10: a copy rule is resolved only from the resolved-value table built
during the run (line 465 reads `resolved`, not the Vault snapshot or the
static secrets): when the referenced pair has no declaration of its own,
`_resolve_secrets` raises the unresolvable-secrets error containing the copy
declaration, whatever values the Vault snapshot or static secrets hold for
that pair. -/
theorem C10_copy_reads_only_resolved_table (secrets : List Secret)
    (vault_secrets : AppMap) (static_secrets : Option StaticSecrets)
    (regenerate : Bool) (c : Secret) (cr : CopyRules)
    (hc : c ∈ secrets) (hv : truthy c.value = false)
    (hcr : c.copy_rules = some cr)
    (hundecl : ∀ d ∈ secrets, ¬(d.application = cr.application ∧ d.key = cr.key)) :
    ∃ l, _resolve_secrets secrets vault_secrets static_secrets regenerate
        = .error l ∧ c ∈ l := by
  have hyp : ¬ DeclaredIn secrets cr.application cr.key := by
    rintro ⟨d, hd, hda, hdk⟩
    exact hundecl d hd ⟨hda, hdk⟩
  obtain ⟨l, hl, hcl⟩ := resolveLoop_error_of_undeclared_copy vault_secrets
    (defaultStatic static_secrets) regenerate secrets c cr hv hcr hyp
    secrets.length secrets []
    (fun x hx => hx) (fun a k h => absurd (lookup2_nil a k) h) hc
  refine ⟨l, ?_, hcl⟩
  simp [_resolve_secrets, hl]

section FidelityLemmas

variable (vault : AppMap) (static : StaticSecrets) (regenerate : Bool)

/-- Inversion of the copy branch of `_resolve_secret` (lines 463-468): a copy
declaration that resolves got exactly the value the resolved table holds for
its source pair. -/
theorem copy_resolution_inversion (c : Secret) (R : AppMap) (cur st : Option String)
    (cr : CopyRules) (s : String)
    (hv : truthy c.value = false) (hcr : c.copy_rules = some cr)
    (hres : _resolve_secret c R cur st regenerate = some s) :
    lookup2 R cr.application cr.key = some s := by
  simp only [_resolve_secret, hv, Bool.false_eq_true, if_false, hcr] at hres
  by_cases ht : truthy (lookup2 R cr.application cr.key) = true
  · rwa [if_pos ht] at hres
  · rw [if_neg ht] at hres
    exact Option.noConfusion hres

/-- Through one pass over pairwise-distinct pending declarations whose pairs
are absent from the resolved table: existing table entries are preserved
unchanged, still-pending pairs stay absent, and every copy declaration
resolved by the pass holds, at its own pair, exactly the value at its source
pair. -/
theorem resolvePass_nodup_inv (p : List Secret) (R : AppMap)
    (hpw : p.Pairwise (fun c d => pairOf c ≠ pairOf d))
    (hJ : ∀ c ∈ p, lookup2 R c.application c.key = none) :
    (∀ a k v, lookup2 R a k = some v →
        lookup2 (resolvePass vault static regenerate p R).1 a k = some v)
    ∧ (∀ c ∈ (resolvePass vault static regenerate p R).2,
        lookup2 (resolvePass vault static regenerate p R).1 c.application c.key = none)
    ∧ (∀ c ∈ p, c ∉ (resolvePass vault static regenerate p R).2 →
        ∀ cr, truthy c.value = false → c.copy_rules = some cr →
        ∃ v, lookup2 (resolvePass vault static regenerate p R).1
                c.application c.key = some v
          ∧ lookup2 (resolvePass vault static regenerate p R).1
                cr.application cr.key = some v) := by
  induction p generalizing R with
  | nil =>
      exact ⟨fun a k v h => h, fun c hc => absurd hc (List.not_mem_nil c),
        fun c hc => absurd hc (List.not_mem_nil c)⟩
  | cons config rest ih =>
      have hpw' : rest.Pairwise (fun c d => pairOf c ≠ pairOf d) :=
        (List.pairwise_cons.1 hpw).2
      have hhead : ∀ d ∈ rest, pairOf config ≠ pairOf d :=
        (List.pairwise_cons.1 hpw).1
      have hJc : lookup2 R config.application config.key = none :=
        hJ config (List.mem_cons_self config rest)
      have hJrest : ∀ c ∈ rest, lookup2 R c.application c.key = none :=
        fun c hc => hJ c (List.mem_cons_of_mem config hc)
      have hunresolved_case :
          (resolvePass vault static regenerate (config :: rest) R)
            = ((resolvePass vault static regenerate rest R).1,
               config :: (resolvePass vault static regenerate rest R).2) →
          (∀ a k v, lookup2 R a k = some v →
              lookup2 (resolvePass vault static regenerate (config :: rest) R).1 a k
                = some v)
          ∧ (∀ c ∈ (resolvePass vault static regenerate (config :: rest) R).2,
              lookup2 (resolvePass vault static regenerate (config :: rest) R).1
                c.application c.key = none)
          ∧ (∀ c ∈ config :: rest,
              c ∉ (resolvePass vault static regenerate (config :: rest) R).2 →
              ∀ cr, truthy c.value = false → c.copy_rules = some cr →
              ∃ v, lookup2 (resolvePass vault static regenerate (config :: rest) R).1
                      c.application c.key = some v
                ∧ lookup2 (resolvePass vault static regenerate (config :: rest) R).1
                      cr.application cr.key = some v) := by
        intro heq
        rw [heq]
        obtain ⟨ih1, ih2, ih3⟩ := ih R hpw' hJrest
        refine ⟨ih1, ?_, ?_⟩
        · intro c hc
          rcases List.mem_cons.1 hc with rfl | hc'
          · rcases resolvePass_new_pairs vault static regenerate rest R
                c.application c.key with heq2 | ⟨d, hd, hda, hdk⟩
            · rw [heq2]
              exact hJc
            · exact absurd (by rw [pairOf, pairOf, hda, hdk]) (hhead d hd)
          · exact ih2 c hc'
        · intro c hc hcu cr hv hcr
          have hc' : c ∈ rest := by
            rcases List.mem_cons.1 hc with rfl | h
            · exact absurd (List.mem_cons_self c _) hcu
            · exact h
          exact ih3 c hc' (fun h => hcu (List.mem_cons_of_mem _ h)) cr hv hcr
      rcases hres : _resolve_secret config R (currentOf vault config)
          (staticOf static config) regenerate with _ | s
      · exact hunresolved_case
          (resolvePass_cons_none vault static regenerate config rest R hres)
      · by_cases hs : s = ""
        · subst hs
          exact hunresolved_case
            (resolvePass_cons_empty vault static regenerate config rest R hres)
        · rw [resolvePass_cons_some vault static regenerate config rest R s hres hs]
          have hJ' : ∀ c ∈ rest,
              lookup2 (insert2 R config.application config.key s)
                c.application c.key = none := by
            intro c hc
            have hne : ¬(config.application = c.application
                ∧ config.key = c.key) := by
              intro hp
              exact hhead c hc (by rw [pairOf, pairOf, hp.1, hp.2])
            rw [lookup2_insert2_ne R _ _ _ _ s hne]
            exact hJrest c hc
          obtain ⟨ih1, ih2, ih3⟩ := ih _ hpw' hJ'
          have hmono1 : ∀ a k v, lookup2 R a k = some v →
              lookup2 (resolvePass vault static regenerate rest
                (insert2 R config.application config.key s)).1 a k = some v := by
            intro a k v hvv
            apply ih1
            have hne : ¬(config.application = a ∧ config.key = k) := by
              intro hp
              rw [hp.1, hp.2] at hJc
              rw [hJc] at hvv
              exact Option.noConfusion hvv
            rw [lookup2_insert2_ne R a k _ _ s hne]
            exact hvv
          refine ⟨hmono1, ih2, ?_⟩
          · intro c hc hcu cr hvtr hcr
            by_cases hcc : c = config
            · subst hcc
              have hcopy : lookup2 R cr.application cr.key = some s :=
                copy_resolution_inversion regenerate c R _ _ cr s hvtr hcr hres
              have hne : ¬(c.application = cr.application
                  ∧ c.key = cr.key) := by
                intro hp
                rw [← hp.1, ← hp.2] at hcopy
                rw [hJc] at hcopy
                exact Option.noConfusion hcopy
              refine ⟨s, ?_, ?_⟩
              · exact ih1 _ _ s (lookup2_insert2_self R c.application c.key s)
              · apply ih1
                rw [lookup2_insert2_ne R cr.application cr.key _ _ s hne]
                exact hcopy
            · have hc' : c ∈ rest := by
                rcases List.mem_cons.1 hc with h | h
                · exact absurd h hcc
                · exact h
              exact ih3 c hc' hcu cr hvtr hcr

/-- Through the whole loop, when resolution succeeds, every copy declaration
holds exactly the value at its source pair. -/
theorem resolveLoop_copy_fidelity (secrets : List Secret) :
    ∀ (fuel : Nat) (p : List Secret) (R : AppMap),
      p.Pairwise (fun c d => pairOf c ≠ pairOf d) →
      (∀ c ∈ p, lookup2 R c.application c.key = none) →
      (∀ c ∈ secrets, c ∉ p → ∀ cr, truthy c.value = false →
        c.copy_rules = some cr →
        ∃ v, lookup2 R c.application c.key = some v
          ∧ lookup2 R cr.application cr.key = some v) →
      ∀ Rf, resolveLoop vault static regenerate fuel p R = .ok Rf →
      ∀ c ∈ secrets, ∀ cr, truthy c.value = false → c.copy_rules = some cr →
        ∃ v, lookup2 Rf c.application c.key = some v
          ∧ lookup2 Rf cr.application cr.key = some v := by
  intro fuel
  induction fuel with
  | zero =>
      intro p R hpw hJ hK Rf hok c hc cr hv hcr
      cases p with
      | nil =>
          rw [resolveLoop_nil] at hok
          injection hok with h
          subst h
          exact hK c hc (List.not_mem_nil c) cr hv hcr
      | cons config rest =>
          rw [resolveLoop_zero vault static regenerate _ R (by simp)] at hok
          exact Except.noConfusion hok
  | succ fuel ih =>
      intro p R hpw hJ hK Rf hok c hc cr hv hcr
      cases p with
      | nil =>
          rw [resolveLoop_nil] at hok
          injection hok with h
          subst h
          exact hK c hc (List.not_mem_nil c) cr hv hcr
      | cons config rest =>
          obtain ⟨inv1, inv2, inv3⟩ := resolvePass_nodup_inv vault static regenerate
            (config :: rest) R hpw hJ
          rw [resolveLoop_succ] at hok
          by_cases hlen : (config :: rest).length
              ≤ (resolvePass vault static regenerate (config :: rest) R).2.length
          · rw [if_pos hlen] at hok
            exact Except.noConfusion hok
          · rw [if_neg hlen] at hok
            refine ih _ _ ?_ inv2 ?_ Rf hok c hc cr hv hcr
            · exact List.Pairwise.sublist
                (resolvePass_sublist vault static regenerate (config :: rest) R) hpw
            · intro c' hc' hc'notu cr' hv' hcr'
              by_cases hc'p : c' ∈ (config :: rest)
              · exact inv3 c' hc'p hc'notu cr' hv' hcr'
              · obtain ⟨v, h1, h2⟩ := hK c' hc' hc'p cr' hv' hcr'
                exact ⟨v, inv1 _ _ v h1, inv1 _ _ v h2⟩

end FidelityLemmas

/-- C9: on every declaration set with pairwise-distinct `(application, key)`
pairs (the data-model invariant of the spec) on which `_resolve_secrets`
succeeds, the resolved value of every copy-rule declaration is identical to the
resolved value of the pair it references (lines 463-468 copy the resolved
table entry verbatim; entries are never overwritten afterwards). -/
theorem C9_copy_fidelity (secrets : List Secret) (vault_secrets : AppMap)
    (static_secrets : Option StaticSecrets) (regenerate : Bool)
    (res : ResolvedSecrets) (c : Secret) (cr : CopyRules)
    (hpw : secrets.Pairwise (fun c d => pairOf c ≠ pairOf d))
    (hok : _resolve_secrets secrets vault_secrets static_secrets regenerate = .ok res)
    (hc : c ∈ secrets) (hv : truthy c.value = false)
    (hcr : c.copy_rules = some cr) :
    ∃ v, lookup2 res.applications c.application c.key = some v
      ∧ lookup2 res.applications cr.application cr.key = some v := by
  rcases hloop : resolveLoop vault_secrets (defaultStatic static_secrets) regenerate
      secrets.length secrets [] with u | Rf
  · rw [_resolve_secrets] at hok
    simp only [hloop] at hok
    exact Except.noConfusion hok
  · rw [_resolve_secrets] at hok
    simp only [hloop] at hok
    injection hok with h
    have happs : res.applications = Rf := by
      rw [← h]
    rw [happs]
    exact resolveLoop_copy_fidelity vault_secrets (defaultStatic static_secrets)
      regenerate secrets secrets.length secrets [] hpw
      (fun c' hc' => lookup2_nil _ _)
      (fun c' hc' hnot => absurd hc' hnot)
      Rf hloop c hc cr hv hcr

/-- C9 witness: `api/dbpass` copied from the literal `db/password` resolves
with both pairs holding the same value. -/
theorem C9_copy_fidelity_witness :
    ∃ v, lookup2
        [("db", [("password", "s3cret")]), ("api", [("dbpass", "s3cret")])]
        "api" "dbpass" = some v
      ∧ lookup2
        [("db", [("password", "s3cret")]), ("api", [("dbpass", "s3cret")])]
        "db" "password" = some v := by
  have h := C9_copy_fidelity
    [{ application := "db", key := "password", value := some "s3cret",
       copy_rules := none, generate := none },
     { application := "api", key := "dbpass", value := none,
       copy_rules := some ⟨"db", "password"⟩, generate := none }]
    [] none false
    { applications := [("db", [("password", "s3cret")]),
                       ("api", [("dbpass", "s3cret")])],
      pull_secret := none }
    { application := "api", key := "dbpass", value := none,
      copy_rules := some ⟨"db", "password"⟩, generate := none }
    ⟨"db", "password"⟩
    (by simp [pairOf])
    rfl
    (List.mem_cons_of_mem _ (List.mem_cons_self _ _))
    rfl rfl
  exact h

/-- C10 witness: a single copy declaration `api/dbpass ← db/password` with no
declaration for `db/password` errors even though both the Vault snapshot and
the static secrets hold a value for `db/password`. -/
theorem C10_copy_reads_only_resolved_table_witness :
    ∃ l, _resolve_secrets
        [{ application := "api", key := "dbpass", value := none,
           copy_rules := some ⟨"db", "password"⟩, generate := none }]
        [("db", [("password", "super")])]
        (some { applications := [("db", [("password", { value := some "stat" })])],
                pull_secret := none })
        false
      = .error l
    ∧ ({ application := "api", key := "dbpass", value := none,
         copy_rules := some ⟨"db", "password"⟩, generate := none } : Secret) ∈ l := by
  refine C10_copy_reads_only_resolved_table _ _ _ _ _ ⟨"db", "password"⟩
    (List.mem_cons_self _ _) rfl rfl ?_
  intro d hd
  rcases List.mem_cons.1 hd with rfl | hd'
  · rintro ⟨h1, h2⟩
    exact absurd h1 (by decide)
  · exact absurd hd' (List.not_mem_nil d)

/-! ### Audit lemmas -/

theorem mem_of_alookup_eq_some {α : Type} (m : List (String × α)) (k : String) (v : α)
    (h : alookup m k = some v) : (k, v) ∈ m := by
  induction m with
  | nil => exact Option.noConfusion h
  | cons hd tl ih =>
      obtain ⟨k₀, w⟩ := hd
      by_cases h0 : k₀ = k
      · subst h0
        simp only [alookup, if_pos] at h
        injection h with h
        subst h
        exact List.mem_cons_self _ _
      · simp only [alookup, if_neg h0] at h
        exact List.mem_cons_of_mem _ (ih h)

theorem alookup_eq_of_mem_nodup {α : Type} (m : List (String × α)) (k : String) (v : α)
    (hmem : (k, v) ∈ m) (hnodup : (m.map Prod.fst).Nodup) : alookup m k = some v := by
  induction m with
  | nil => exact absurd hmem (List.not_mem_nil _)
  | cons hd tl ih =>
      obtain ⟨k₀, w⟩ := hd
      simp only [List.map_cons, List.nodup_cons] at hnodup
      rcases List.mem_cons.1 hmem with heq | hmem'
      · injection heq with h1 h2
        subst h1
        subst h2
        simp [alookup]
      · have hne : k₀ ≠ k := by
          intro h0
          subst h0
          exact hnodup.1 (List.mem_map_of_mem Prod.fst hmem')
        simp only [alookup, if_neg hne]
        exact ih hmem' hnodup.2

theorem alookup_isSome_of_mem_keys {α : Type} (m : List (String × α)) (k : String)
    (h : k ∈ m.map Prod.fst) : (alookup m k).isSome := by
  induction m with
  | nil => simp at h
  | cons hd tl ih =>
      obtain ⟨k₀, w⟩ := hd
      by_cases h0 : k₀ = k
      · subst h0
        rw [alookup]
        rw [if_pos rfl]
        rfl
      · simp only [List.map_cons, List.mem_cons] at h
        rcases h with h | h
        · exact absurd h.symm h0
        · simp only [alookup, if_neg h0]
          exact ih h

theorem ainsert_map_of_mem_nodup {α : Type} (m : List (String × α)) (k : String)
    (v w : α) (hnodup : (m.map Prod.fst).Nodup) (hmem : alookup m k = some w) :
    ainsert m k v = m.map (fun av => if av.1 = k then (k, v) else av) := by
  induction m with
  | nil => exact Option.noConfusion hmem
  | cons hd tl ih =>
      obtain ⟨k₀, w₀⟩ := hd
      simp only [List.map_cons, List.nodup_cons] at hnodup
      by_cases h0 : k₀ = k
      · subst h0
        simp only [ainsert, if_pos rfl, List.map_cons]
        have : tl.map (fun av => if av.1 = k₀ then (k₀, v) else av) = tl := by
          apply List.map_congr_left ?_ |>.trans (List.map_id tl)
          intro av hav
          have : av.1 ≠ k₀ :=
            fun h => hnodup.1 (h ▸ List.mem_map_of_mem Prod.fst hav)
          simp [this]
        simp [this]
      · simp only [alookup, if_neg h0] at hmem
        simp only [ainsert, if_neg h0, List.map_cons, if_neg h0]
        rw [ih hnodup.2 hmem]

theorem flatPairs_nil : flatPairs [] = [] := rfl

theorem flatPairs_cons (a : String) (lv : SMap) (m : AppMap) :
    flatPairs ((a, lv) :: m) = lv.map (fun kv => (a, kv.1)) ++ flatPairs m := by
  simp [flatPairs, cmap]

theorem key_mem_of_mem_flatPairs (m : AppMap) (q : String × String)
    (h : q ∈ flatPairs m) : q.1 ∈ m.map Prod.fst := by
  rw [flatPairs, mem_cmap] at h
  obtain ⟨av, hav, hq⟩ := h
  rw [List.mem_map] at hq
  obtain ⟨kv, hkv, hqe⟩ := hq
  rw [← hqe]
  exact List.mem_map_of_mem Prod.fst hav

theorem mem_flatPairs_of_lookup2 (m : AppMap) (a k : String)
    (h : (lookup2 m a k).isSome) : (a, k) ∈ flatPairs m := by
  rw [lookup2] at h
  rcases hl : alookup m a with _ | lv
  · rw [hl] at h
    simp [alookup] at h
  · rw [hl] at h
    simp only [Option.getD_some] at h
    rcases ho : alookup lv k with _ | w
    · rw [ho] at h
      simp at h
    · rw [flatPairs, mem_cmap]
      refine ⟨(a, lv), mem_of_alookup_eq_some m a lv hl, ?_⟩
      have hkv : (k, w) ∈ lv := mem_of_alookup_eq_some lv k w ho
      exact List.mem_map.2 ⟨(k, w), hkv, rfl⟩

theorem lookup2_isSome_of_mem_flatPairs (m : AppMap) (q : String × String)
    (hA : (m.map Prod.fst).Nodup) (h : q ∈ flatPairs m) :
    (lookup2 m q.1 q.2).isSome := by
  rw [flatPairs, mem_cmap] at h
  obtain ⟨av, hav, hq⟩ := h
  rw [List.mem_map] at hq
  obtain ⟨kv, hkv, hqe⟩ := hq
  subst hqe
  rw [lookup2, alookup_eq_of_mem_nodup m av.1 av.2 (by rw [Prod.mk.eta]; exact hav) hA]
  simp only [Option.getD_some]
  exact alookup_isSome_of_mem_keys av.2 kv.1 (List.mem_map_of_mem Prod.fst hkv)

theorem flatPairs_map_filter (m : AppMap) (q : String → String → Bool) :
    flatPairs (m.map (fun av => (av.1, av.2.filter (fun kv => q av.1 kv.1))))
      = (flatPairs m).filter (fun p => q p.1 p.2) := by
  induction m with
  | nil => rfl
  | cons hd tl ih =>
      obtain ⟨a, lv⟩ := hd
      simp only [List.map_cons]
      rw [flatPairs_cons, flatPairs_cons, List.filter_append, ih]
      congr 1
      rw [List.filter_map]
      congr 1

/-- Characterization of the audit inner loop (lines 94-100): given
duplicate-free keys, it returns the missing pairs and mismatched pairs of
one application as order-preserving filters of the resolved keys, and leaves
exactly the Vault entries whose key is not resolved. -/
theorem auditKeys_spec (app : String) (values : SMap) : ∀ (inner : SMap),
    (inner.map Prod.fst).Nodup → (values.map Prod.fst).Nodup →
    auditKeys app values inner =
      ((values.filter (fun kv => (alookup inner kv.1).isNone)).map
          (fun kv => (app, kv.1)),
       (values.filter (fun kv => match alookup inner kv.1 with
          | some w => decide (¬ w = kv.2)
          | none => false)).map (fun kv => (app, kv.1)),
       inner.filter (fun kv => (alookup values kv.1).isNone)) := by
  induction values with
  | nil =>
      intro inner hinner hvals
      have h3 : inner.filter (fun kv => (alookup ([] : SMap) kv.1).isNone) = inner :=
        List.filter_eq_self.2 (fun kv hkv => by simp [alookup])
      simp only [auditKeys, List.filter_nil, List.map_nil, h3]
  | cons hd tl ih =>
      intro inner hinner hvals
      obtain ⟨key, secret⟩ := hd
      simp only [List.map_cons, List.nodup_cons] at hvals
      rcases hl : alookup inner key with _ | w
      · have hkeys : key ∉ inner.map Prod.fst :=
          not_mem_keys_of_alookup_eq_none inner key hl
        simp only [auditKeys, hl]
        rw [ih inner hinner hvals.2]
        simp only [Prod.mk.injEq]
        refine ⟨?_, ?_, ?_⟩
        · rw [List.filter_cons]
          simp [hl]
        · rw [List.filter_cons]
          simp [hl]
        · apply List.filter_congr
          intro kv hkv
          have hne : kv.1 ≠ key :=
            fun h => hkeys (h ▸ List.mem_map_of_mem Prod.fst hkv)
          simp [alookup, Ne.symm hne]
      · have hinner' := keys_aerase_nodup inner key hinner
        have herase : ∀ kv, kv ∈ tl →
            alookup (aerase inner key) kv.1 = alookup inner kv.1 := by
          intro kv hkv
          have hne : kv.1 ≠ key :=
            fun h => hvals.1 (h ▸ List.mem_map_of_mem Prod.fst hkv)
          exact alookup_aerase_ne inner key kv.1 hne
        simp only [auditKeys, hl]
        rw [ih (aerase inner key) hinner' hvals.2]
        by_cases hw : w = secret
        · rw [if_pos hw]
          simp only [Prod.mk.injEq]
          refine ⟨?_, ?_, ?_⟩
          · rw [List.filter_cons]
            simp only [hl, Option.isNone_some, Bool.false_eq_true, if_false]
            congr 1
            apply List.filter_congr
            intro kv hkv
            rw [herase kv hkv]
          · rw [List.filter_cons]
            simp only [hl, hw]
            rw [if_neg (by simp)]
            congr 1
            apply List.filter_congr
            intro kv hkv
            rw [herase kv hkv]
          · rw [aerase_eq_filter_of_nodup inner key hinner, List.filter_filter]
            apply List.filter_congr
            intro kv hkv
            by_cases hkey : kv.1 = key
            · simp [alookup, hkey]
            · simp [alookup, hkey, Ne.symm hkey]
        · rw [if_neg hw]
          simp only [Prod.mk.injEq]
          refine ⟨?_, ?_, ?_⟩
          · rw [List.filter_cons]
            simp only [hl, Option.isNone_some, Bool.false_eq_true, if_false]
            congr 1
            apply List.filter_congr
            intro kv hkv
            rw [herase kv hkv]
          · rw [List.filter_cons]
            simp only [hl, hw]
            rw [if_pos (by simp [hw])]
            simp only [List.map_cons]
            congr 1
            congr 1
            apply List.filter_congr
            intro kv hkv
            rw [herase kv hkv]
          · rw [aerase_eq_filter_of_nodup inner key hinner, List.filter_filter]
            apply List.filter_congr
            intro kv hkv
            by_cases hkey : kv.1 = key
            · simp [alookup, hkey]
            · simp [alookup, hkey, Ne.symm hkey]

/-- Characterization of the audit outer loop (lines 93-100) over
duplicate-free maps: the missing and mismatched pairs are order-preserving
filters of the resolved pairs, and the final Vault state keeps every
application, with exactly its unresolved keys. -/
theorem auditApps_spec (resolvedApps : List (String × SMap)) : ∀ (vault : AppMap),
    (resolvedApps.map Prod.fst).Nodup →
    (∀ av ∈ resolvedApps, ((av.2 : SMap).map Prod.fst).Nodup) →
    (vault.map Prod.fst).Nodup →
    (∀ av ∈ vault, ((av.2 : SMap).map Prod.fst).Nodup) →
    auditApps resolvedApps vault =
      (auditMissing resolvedApps vault,
       auditMismatch resolvedApps vault,
       vault.map (fun av => (av.1,
         av.2.filter (fun kv => (lookup2 resolvedApps av.1 kv.1).isNone)))) := by
  induction resolvedApps with
  | nil =>
      intro vault _ _ _ _
      simp only [auditApps, auditMissing, auditMismatch, flatPairs_nil,
        List.filter_nil, Prod.mk.injEq]
      refine ⟨trivial, trivial, ?_⟩
      have hall : ∀ av ∈ vault,
          (av.1, av.2.filter (fun kv => (lookup2 ([] : AppMap) av.1 kv.1).isNone))
            = id av := by
        intro av hav
        have : av.2.filter (fun kv => (lookup2 ([] : AppMap) av.1 kv.1).isNone)
            = av.2 :=
          List.filter_eq_self.2 (fun kv hkv => by simp [lookup2, alookup])
        rw [this, Prod.mk.eta]
        rfl
      exact ((List.map_congr_left hall).trans (List.map_id vault)).symm
  | cons hd rest ih =>
      intro vault hrA hrI hvA hvI
      obtain ⟨appName, values⟩ := hd
      simp only [List.map_cons, List.nodup_cons] at hrA
      have hrI' : ∀ av ∈ rest, ((av.2 : SMap).map Prod.fst).Nodup :=
        fun av hav => hrI av (List.mem_cons_of_mem _ hav)
      have hvalnodup : (values.map Prod.fst).Nodup :=
        hrI (appName, values) (List.mem_cons_self _ _)
      have hconslook : ∀ (q : String × String), q.1 ≠ appName →
          lookup2 ((appName, values) :: rest) q.1 q.2 = lookup2 rest q.1 q.2 := by
        intro q hq
        rw [lookup2, lookup2, alookup, if_neg (Ne.symm hq)]
      have hconslook_self : ∀ (k : String),
          lookup2 ((appName, values) :: rest) appName k = alookup values k := by
        intro k
        rw [lookup2, alookup, if_pos rfl]
        rfl
      rcases hvlook : alookup vault appName with _ | inner
      · have hnotvault : appName ∉ vault.map Prod.fst :=
          not_mem_keys_of_alookup_eq_none vault appName hvlook
        simp only [auditApps, hvlook]
        rw [ih vault hrA.2 hrI' hvA hvI]
        simp only [Prod.mk.injEq]
        refine ⟨?_, ?_, ?_⟩
        · simp only [auditMissing]
          rw [flatPairs_cons, List.filter_append]
          congr 1
          symm
          apply List.filter_eq_self.2
          intro q hq
          rw [List.mem_map] at hq
          obtain ⟨kv, hkv, hqe⟩ := hq
          subst hqe
          simp [lookup2, hvlook, alookup]
        · simp only [auditMismatch]
          rw [flatPairs_cons, List.filter_append]
          have h1 : (values.map (fun kv => (appName, kv.1))).filter
              (fun q => match lookup2 vault q.1 q.2,
                  lookup2 ((appName, values) :: rest) q.1 q.2 with
                | some w, some s => decide (¬ w = s)
                | _, _ => false) = [] := by
            apply List.filter_eq_nil_iff.2
            intro q hq
            rw [List.mem_map] at hq
            obtain ⟨kv, hkv, hqe⟩ := hq
            subst hqe
            have : lookup2 vault appName kv.1 = none := by
              simp [lookup2, hvlook, alookup]
            simp [this]
          rw [h1, List.nil_append]
          apply List.filter_congr
          intro q hq
          have hne : q.1 ≠ appName := by
            intro h
            exact (h ▸ hrA.1) (key_mem_of_mem_flatPairs rest q hq)
          rw [hconslook q hne]
        · apply List.map_congr_left
          intro av hav
          have hne : av.1 ≠ appName := by
            intro h
            exact hnotvault (h ▸ List.mem_map_of_mem Prod.fst hav)
          have : ∀ kv : String × String,
              lookup2 ((appName, values) :: rest) av.1 kv.1
                = lookup2 rest av.1 kv.1 :=
            fun kv => hconslook (av.1, kv.1) hne
          simp only [Prod.mk.injEq, true_and]
          apply List.filter_congr
          intro kv hkv
          rw [this kv]
      · have hmemvault : (appName, inner) ∈ vault :=
          mem_of_alookup_eq_some vault appName inner hvlook
        have hinner_nodup : (inner.map Prod.fst).Nodup := hvI (appName, inner) hmemvault
        simp only [auditApps, hvlook]
        rw [auditKeys_spec appName values inner hinner_nodup hvalnodup]
        have hvault'_eq : ainsert vault appName
            (inner.filter (fun kv => (alookup values kv.1).isNone))
            = vault.map (fun av => if av.1 = appName
                then (appName, inner.filter (fun kv => (alookup values kv.1).isNone))
                else av) :=
          ainsert_map_of_mem_nodup vault appName _ inner hvA hvlook
        have hkeys' : (ainsert vault appName
            (inner.filter (fun kv => (alookup values kv.1).isNone))).map Prod.fst
            = vault.map Prod.fst := by
          rw [hvault'_eq, List.map_map]
          apply List.map_congr_left
          intro av hav
          by_cases h : av.1 = appName
          · simp [Function.comp, h]
          · simp [Function.comp, h]
        have hvA' : ((ainsert vault appName
            (inner.filter (fun kv => (alookup values kv.1).isNone))).map
              Prod.fst).Nodup := by
          rw [hkeys']
          exact hvA
        have hvI' : ∀ av ∈ ainsert vault appName
            (inner.filter (fun kv => (alookup values kv.1).isNone)),
            ((av.2 : SMap).map Prod.fst).Nodup := by
          intro av hav
          rw [hvault'_eq, List.mem_map] at hav
          obtain ⟨av0, hav0, heq0⟩ := hav
          by_cases h : av0.1 = appName
          · rw [if_pos h] at heq0
            subst heq0
            exact ((List.filter_sublist inner).map Prod.fst).nodup hinner_nodup
          · rw [if_neg h] at heq0
            subst heq0
            exact hvI av0 hav0
        rw [ih _ hrA.2 hrI' hvA' hvI']
        simp only [Prod.mk.injEq]
        refine ⟨?_, ?_, ?_⟩
        · simp only [auditMissing]
          rw [flatPairs_cons, List.filter_append]
          congr 1
          · rw [List.filter_map]
            congr 1
            apply List.filter_congr
            intro kv hkv
            simp only [Function.comp]
            simp [lookup2, hvlook]
          · apply List.filter_congr
            intro q hq
            have hne : q.1 ≠ appName := by
              intro h
              exact (h ▸ hrA.1) (key_mem_of_mem_flatPairs rest q hq)
            have : lookup2 (ainsert vault appName
                (inner.filter (fun kv => (alookup values kv.1).isNone))) q.1 q.2
                = lookup2 vault q.1 q.2 := by
              rw [lookup2, lookup2, alookup_ainsert_ne vault appName q.1 _ hne]
            rw [this]
        · simp only [auditMismatch]
          rw [flatPairs_cons, List.filter_append]
          congr 1
          · rw [List.filter_map]
            congr 1
            apply List.filter_congr
            intro kv hkv
            have h1 : lookup2 vault appName kv.1 = alookup inner kv.1 := by
              simp [lookup2, hvlook]
            have h2 : lookup2 ((appName, values) :: rest) appName kv.1
                = some kv.2 := by
              rw [hconslook_self]
              exact alookup_eq_of_mem_nodup values kv.1 kv.2
                (by rw [Prod.mk.eta]; exact hkv) hvalnodup
            simp only [Function.comp, h1, h2]
            rcases alookup inner kv.1 with _ | w
            · rfl
            · rfl
          · apply List.filter_congr
            intro q hq
            have hne : q.1 ≠ appName := by
              intro h
              exact (h ▸ hrA.1) (key_mem_of_mem_flatPairs rest q hq)
            have hv1 : lookup2 (ainsert vault appName
                (inner.filter (fun kv => (alookup values kv.1).isNone))) q.1 q.2
                = lookup2 vault q.1 q.2 := by
              rw [lookup2, lookup2, alookup_ainsert_ne vault appName q.1 _ hne]
            rw [hv1, hconslook q hne]
        · rw [hvault'_eq, List.map_map]
          apply List.map_congr_left
          intro av hav
          simp only [Function.comp]
          by_cases h : av.1 = appName
          · rw [if_pos h]
            have hav2 : av.2 = inner := by
              have := alookup_eq_of_mem_nodup vault av.1 av.2
                (by rw [Prod.mk.eta]; exact hav) hvA
              rw [h, hvlook] at this
              injection this with h2
              exact h2.symm
            have hall : (inner.filter
                (fun kv => (alookup values kv.1).isNone)).filter
                (fun kv => (lookup2 rest appName kv.1).isNone)
                = inner.filter (fun kv => (alookup values kv.1).isNone) := by
              apply List.filter_eq_self.2
              intro kv hkv
              have : alookup rest appName = none :=
                alookup_eq_none_of_not_mem_keys rest appName hrA.1
              simp [lookup2, this, alookup]
            simp only [hall]
            rw [h, hav2]
            simp only [Prod.mk.injEq, true_and]
            apply List.filter_congr
            intro kv hkv
            rw [hconslook_self]
          · rw [if_neg h]
            simp only [Prod.mk.injEq, true_and]
            apply List.filter_congr
            intro kv hkv
            rw [hconslook (av.1, kv.1) h]

/-- C4: the audit comparison (lines 90-112) classifies every
`(application, key)` of the union of the resolved set and the snapshot into
exactly one of ok / missing / mismatch / unknown (for duplicate-free maps,
the Python dict invariant): the three reported lists are exactly the
order-preserving filters of the resolved pairs (missing, mismatch) and the
snapshot pairs (unknown) — so discovery order is preserved within each group
— membership in each list coincides with its defining predicate, the four
predicates are mutually exclusive and exhaustive over the union, and the
textual report lists the groups in the order missing, mismatch, unknown. -/
theorem C4_audit_classification (resolvedApps vault_secrets : AppMap)
    (hrA : (resolvedApps.map Prod.fst).Nodup)
    (hrI : ∀ av ∈ resolvedApps, ((av.2 : SMap).map Prod.fst).Nodup)
    (hvA : (vault_secrets.map Prod.fst).Nodup)
    (hvI : ∀ av ∈ vault_secrets, ((av.2 : SMap).map Prod.fst).Nodup) :
    (auditClassify resolvedApps vault_secrets
      = (auditMissing resolvedApps vault_secrets,
         auditMismatch resolvedApps vault_secrets,
         auditUnknown resolvedApps vault_secrets))
    ∧ (∀ q : String × String,
        (q ∈ auditMissing resolvedApps vault_secrets ↔
          (lookup2 resolvedApps q.1 q.2).isSome
            ∧ lookup2 vault_secrets q.1 q.2 = none)
        ∧ (q ∈ auditMismatch resolvedApps vault_secrets ↔
          ∃ s w, lookup2 resolvedApps q.1 q.2 = some s
            ∧ lookup2 vault_secrets q.1 q.2 = some w ∧ w ≠ s)
        ∧ (q ∈ auditUnknown resolvedApps vault_secrets ↔
          lookup2 resolvedApps q.1 q.2 = none
            ∧ (lookup2 vault_secrets q.1 q.2).isSome))
    ∧ (∀ a k, (lookup2 resolvedApps a k).isSome
          ∨ (lookup2 vault_secrets a k).isSome →
        ((∃ s, lookup2 resolvedApps a k = some s
            ∧ lookup2 vault_secrets a k = some s)
          ∧ ¬((lookup2 resolvedApps a k).isSome ∧ lookup2 vault_secrets a k = none)
          ∧ ¬(∃ s w, lookup2 resolvedApps a k = some s
              ∧ lookup2 vault_secrets a k = some w ∧ w ≠ s)
          ∧ ¬(lookup2 resolvedApps a k = none ∧ (lookup2 vault_secrets a k).isSome))
        ∨ (¬(∃ s, lookup2 resolvedApps a k = some s
            ∧ lookup2 vault_secrets a k = some s)
          ∧ ((lookup2 resolvedApps a k).isSome ∧ lookup2 vault_secrets a k = none)
          ∧ ¬(∃ s w, lookup2 resolvedApps a k = some s
              ∧ lookup2 vault_secrets a k = some w ∧ w ≠ s)
          ∧ ¬(lookup2 resolvedApps a k = none ∧ (lookup2 vault_secrets a k).isSome))
        ∨ (¬(∃ s, lookup2 resolvedApps a k = some s
            ∧ lookup2 vault_secrets a k = some s)
          ∧ ¬((lookup2 resolvedApps a k).isSome ∧ lookup2 vault_secrets a k = none)
          ∧ (∃ s w, lookup2 resolvedApps a k = some s
              ∧ lookup2 vault_secrets a k = some w ∧ w ≠ s)
          ∧ ¬(lookup2 resolvedApps a k = none ∧ (lookup2 vault_secrets a k).isSome))
        ∨ (¬(∃ s, lookup2 resolvedApps a k = some s
            ∧ lookup2 vault_secrets a k = some s)
          ∧ ¬((lookup2 resolvedApps a k).isSome ∧ lookup2 vault_secrets a k = none)
          ∧ ¬(∃ s w, lookup2 resolvedApps a k = some s
              ∧ lookup2 vault_secrets a k = some w ∧ w ≠ s)
          ∧ (lookup2 resolvedApps a k = none
            ∧ (lookup2 vault_secrets a k).isSome)))
    ∧ audit resolvedApps vault_secrets
      = reportSection "Missing secrets:" (auditMissing resolvedApps vault_secrets)
        ++ reportSection "Incorrect secrets:" (auditMismatch resolvedApps vault_secrets)
        ++ reportSection "Unknown secrets in Vault:"
            (auditUnknown resolvedApps vault_secrets) := by
  have h1 : auditClassify resolvedApps vault_secrets
      = (auditMissing resolvedApps vault_secrets,
         auditMismatch resolvedApps vault_secrets,
         auditUnknown resolvedApps vault_secrets) := by
    simp only [auditClassify]
    rw [auditApps_spec resolvedApps vault_secrets hrA hrI hvA hvI]
    simp only [auditUnknown]
    rw [flatPairs_map_filter vault_secrets
      (fun a k => (lookup2 resolvedApps a k).isNone)]
  refine ⟨h1, ?_, ?_, ?_⟩
  · intro q
    refine ⟨?_, ?_, ?_⟩
    · rw [auditMissing, List.mem_filter]
      constructor
      · rintro ⟨hmem, hpred⟩
        refine ⟨lookup2_isSome_of_mem_flatPairs resolvedApps q hrA hmem, ?_⟩
        simpa [Option.isNone_iff_eq_none] using hpred
      · rintro ⟨hsome, hnone⟩
        refine ⟨?_, by simp [hnone]⟩
        have := mem_flatPairs_of_lookup2 resolvedApps q.1 q.2 hsome
        rwa [Prod.mk.eta] at this
    · rw [auditMismatch, List.mem_filter]
      constructor
      · rintro ⟨hmem, hpred⟩
        rcases hv : lookup2 vault_secrets q.1 q.2 with _ | w
        · rw [hv] at hpred
          simp at hpred
        · rcases hs : lookup2 resolvedApps q.1 q.2 with _ | s
          · rw [hv, hs] at hpred
            simp at hpred
          · rw [hv, hs] at hpred
            simp only [decide_eq_true_eq] at hpred
            exact ⟨s, w, rfl, rfl, hpred⟩
      · rintro ⟨s, w, hs, hv, hne⟩
        constructor
        · have := mem_flatPairs_of_lookup2 resolvedApps q.1 q.2 (by simp [hs])
          rwa [Prod.mk.eta] at this
        · rw [hs, hv]
          simpa using hne
    · rw [auditUnknown, List.mem_filter]
      constructor
      · rintro ⟨hmem, hpred⟩
        refine ⟨?_, lookup2_isSome_of_mem_flatPairs vault_secrets q hvA hmem⟩
        simpa [Option.isNone_iff_eq_none] using hpred
      · rintro ⟨hnone, hsome⟩
        refine ⟨?_, by simp [hnone]⟩
        have := mem_flatPairs_of_lookup2 vault_secrets q.1 q.2 hsome
        rwa [Prod.mk.eta] at this
  · intro a k h
    rcases hr : lookup2 resolvedApps a k with _ | s
    · rcases hv : lookup2 vault_secrets a k with _ | w
      · rw [hr, hv] at h
        simp at h
      · refine Or.inr (Or.inr (Or.inr ⟨?_, ?_, ?_, rfl, rfl⟩))
        · rintro ⟨s, hs, _⟩
          exact Option.noConfusion hs
        · rintro ⟨hs, _⟩
          simp at hs
        · rintro ⟨s, w', hs, _, _⟩
          exact Option.noConfusion hs
    · rcases hv : lookup2 vault_secrets a k with _ | w
      · refine Or.inr (Or.inl ⟨?_, ⟨rfl, rfl⟩, ?_, ?_⟩)
        · rintro ⟨s', _, hv'⟩
          exact Option.noConfusion hv'
        · rintro ⟨s', w', _, hv', _⟩
          exact Option.noConfusion hv'
        · rintro ⟨hs, _⟩
          exact Option.noConfusion hs
      · by_cases hws : w = s
        · subst hws
          refine Or.inl ⟨⟨w, rfl, rfl⟩, ?_, ?_, ?_⟩
          · rintro ⟨_, hv'⟩
            exact Option.noConfusion hv'
          · rintro ⟨s', w', hs', hv', hne⟩
            injection hs' with hs'
            injection hv' with hv'
            exact hne (hv'.symm.trans hs')
          · rintro ⟨hs', _⟩
            exact Option.noConfusion hs'
        · refine Or.inr (Or.inr (Or.inl ⟨?_, ?_, ⟨s, w, rfl, rfl, hws⟩, ?_⟩))
          · rintro ⟨s', hs', hv'⟩
            injection hs' with hs'
            injection hv' with hv'
            exact hws (hv'.trans hs'.symm)
          · rintro ⟨_, hv'⟩
            exact Option.noConfusion hv'
          · rintro ⟨hs', _⟩
            exact Option.noConfusion hs'
  · simp only [audit, h1]

/-- C4 witness: on a concrete resolved set and snapshot, the classification
is exactly (missing, mismatch, unknown) as characterized, with `b/x`
missing, `a/m` mismatched, and `a/stray`, `c/z` unknown, in discovery
order. -/
theorem C4_audit_classification_witness :
    auditClassify
        [("a", [("k", "v"), ("m", "w")]), ("b", [("x", "y")])]
        [("a", [("k", "v"), ("m", "DIFF"), ("stray", "s")]), ("c", [("z", "q")])]
      = (auditMissing
          [("a", [("k", "v"), ("m", "w")]), ("b", [("x", "y")])]
          [("a", [("k", "v"), ("m", "DIFF"), ("stray", "s")]), ("c", [("z", "q")])],
         auditMismatch
          [("a", [("k", "v"), ("m", "w")]), ("b", [("x", "y")])]
          [("a", [("k", "v"), ("m", "DIFF"), ("stray", "s")]), ("c", [("z", "q")])],
         auditUnknown
          [("a", [("k", "v"), ("m", "w")]), ("b", [("x", "y")])]
          [("a", [("k", "v"), ("m", "DIFF"), ("stray", "s")]), ("c", [("z", "q")])])
    ∧ auditMissing
        [("a", [("k", "v"), ("m", "w")]), ("b", [("x", "y")])]
        [("a", [("k", "v"), ("m", "DIFF"), ("stray", "s")]), ("c", [("z", "q")])]
      = [("b", "x")]
    ∧ auditMismatch
        [("a", [("k", "v"), ("m", "w")]), ("b", [("x", "y")])]
        [("a", [("k", "v"), ("m", "DIFF"), ("stray", "s")]), ("c", [("z", "q")])]
      = [("a", "m")]
    ∧ auditUnknown
        [("a", [("k", "v"), ("m", "w")]), ("b", [("x", "y")])]
        [("a", [("k", "v"), ("m", "DIFF"), ("stray", "s")]), ("c", [("z", "q")])]
      = [("a", "stray"), ("c", "z")] := by
  refine ⟨(C4_audit_classification
    [("a", [("k", "v"), ("m", "w")]), ("b", [("x", "y")])]
    [("a", [("k", "v"), ("m", "DIFF"), ("stray", "s")]), ("c", [("z", "q")])]
    (by decide) (by decide) (by decide) (by decide)).1, rfl, rfl, rfl⟩

end Phalanx
